import Mathlib

/-!
A shallow embedding of `src/backup.py` (class `BackupCreator`): a directory
backup tool that validates paths, copies a source tree to a timestamped
destination, optionally compresses the copy into a deflate archive, and prunes
old backups.  The filesystem is modelled as an association list from paths
(lists of name components, each a list of characters) to nodes (regular file
with its byte content, zip archive with its entry list, or directory), each
carrying a modification time.  Outcomes of Python I/O that cannot be derived
from the filesystem state (free disk space, injected copy errors, per-file
archive failures) are supplied by an explicit environment record.
-/

namespace BackupTool

/-- A single path component, e.g. a file or directory name. -/
abbrev Name := List Char

/-- An absolute path, as a list of components from the root. -/
abbrev FPath := List Name

/-- A filesystem node: a regular file with its content, a zip archive with its
list of entries (entry name as a relative path, plus stored content), or a
directory. -/
inductive Node
  | file (content : String)
  | zip (entries : List (FPath × String))
  | dir
deriving DecidableEq

/-- One filesystem entry: a path, the node stored there, and its mtime. -/
structure FSEntry where
  path : FPath
  node : Node
  mtime : Nat
deriving DecidableEq

/-- The filesystem: a list of entries (first match wins on lookup). -/
abbrev FS := List FSEntry

/-- Look up the entry at a path. -/
def fsLookup : FS → FPath → Option FSEntry
  | [], _ => none
  | e :: rest, p => if e.path = p then some e else fsLookup rest p

/-- `Path.exists()`. -/
def fsExists (fs : FS) (p : FPath) : Bool := (fsLookup fs p).isSome

/-- `Path.is_dir()`. -/
def fsIsDir (fs : FS) (p : FPath) : Bool :=
  match fsLookup fs p with
  | some ⟨_, .dir, _⟩ => true
  | _ => false

/-- `Path.is_file()`: regular files and zip archives are files on disk. -/
def fsIsFile (fs : FS) (p : FPath) : Bool :=
  match fsLookup fs p with
  | some ⟨_, .file _, _⟩ => true
  | some ⟨_, .zip _, _⟩ => true
  | _ => false

/-- `os.path.getmtime`. -/
def fsMtime (fs : FS) (p : FPath) : Nat :=
  match fsLookup fs p with
  | some e => e.mtime
  | none => 0

/-- `stat().st_size` of a node (directories report 0, a zip archive reports
the total stored size of its entries). -/
def stSize : Node → Nat
  | .file c => c.length
  | .zip es => es.foldl (fun a e => a + e.2.length) 0
  | .dir => 0

/-- The regular files strictly under `root`, as (path relative to `root`,
content) pairs, in filesystem order.  This is what both `os.walk` and
`Path.rglob("*")` filtered by `is_file()` produce. -/
def filesUnder (fs : FS) (root : FPath) : List (FPath × String) :=
  fs.filterMap (fun e =>
    match e.node with
    | .file c =>
        if root.isPrefixOf e.path ∧ e.path ≠ root then
          some (e.path.drop root.length, c)
        else none
    | _ => none)

/-- `shutil.copytree(src, dst)`: every entry at or under `src` is mirrored at
`dst` with the same relative path; `copy2`/`copystat` preserve mtimes. -/
def copytreeFS (fs : FS) (src dst : FPath) : FS :=
  (fs.filterMap (fun e =>
    if src.isPrefixOf e.path then
      some ⟨dst ++ e.path.drop src.length, e.node, e.mtime⟩
    else none)) ++ fs

/-- Write (or overwrite) a node at a path. -/
def fsInsert (fs : FS) (p : FPath) (n : Node) (t : Nat) : FS :=
  ⟨p, n, t⟩ :: fs.filter (fun e => decide (e.path ≠ p))

/-- `shutil.rmtree(p)`: remove every entry at or under `p`. -/
def removeTree (fs : FS) (p : FPath) : FS :=
  fs.filter (fun e => decide (¬ p.isPrefixOf e.path = true))

/-- `Path(p).name`: the final path component (empty for the root). -/
def pathName (p : FPath) : Name := p.getLast?.getD []

/-! ### Backup naming: timestamps, the derived name, and `with_suffix` -/

/-- The character for a single decimal digit. -/
def digitChar (d : Nat) : Char := Char.ofNat (48 + d)

/-- Decimal digits with explicit fuel, so that the kernel can evaluate it. -/
def natDigitsAux : Nat → Nat → List Char
  | 0, _ => []
  | fuel + 1, n =>
      if n < 10 then [digitChar n]
      else natDigitsAux fuel (n / 10) ++ [digitChar (n % 10)]

/-- The decimal digits of a number, most significant first. -/
def natDigits (n : Nat) : List Char := natDigitsAux (n + 1) n

/-- Zero-padded decimal rendering, as `strftime`'s numeric directives do. -/
def padNum (width n : Nat) : List Char :=
  List.replicate (width - (natDigits n).length) '0' ++ natDigits n

/-- A broken-down local time, as `datetime.datetime.now()` provides. -/
structure LocalTime where
  year : Nat
  month : Nat
  day : Nat
  hour : Nat
  minute : Nat
  second : Nat
deriving DecidableEq

/-- `strftime("%Y-%m-%d_%H-%M-%S")`. -/
def fmtTimestamp (t : LocalTime) : Name :=
  padNum 4 t.year ++ ['-'] ++ padNum 2 t.month ++ ['-'] ++ padNum 2 t.day
    ++ ['_'] ++ padNum 2 t.hour ++ ['-'] ++ padNum 2 t.minute
    ++ ['-'] ++ padNum 2 t.second

/-- The literal `"_backup_"` separator of the derived backup name. -/
def bkSep : Name := ['_', 'b', 'a', 'c', 'k', 'u', 'p', '_']

/-- The literal `".zip"` extension. -/
def zipExt : Name := ['.', 'z', 'i', 'p']

/-- `backup_name = f"{folder_name}_backup_{timestamp}"`. -/
def backupName (folder ts : Name) : Name := folder ++ bkSep ++ ts

/-- Index of the last `'.'` in a name, if any. -/
def lastIdxOfDot (n : Name) : Option Nat :=
  (List.range n.length).foldl
    (fun acc i => if n.get? i = some '.' then some i else acc) none

/-- Start index of `PurePath.suffix` of a one-component name: the last dot,
provided it is neither the leading nor the trailing character. -/
def pySuffixIdx (n : Name) : Option Nat :=
  match lastIdxOfDot n with
  | some i => if 0 < i ∧ i + 1 < n.length then some i else none
  | none => none

/-- `PurePath.with_suffix(".zip")` applied to a one-component name: the
existing suffix (everything from the last interior dot) is replaced, and
`".zip"` is appended when there is no suffix. -/
def pyWithSuffixZip (n : Name) : Name :=
  match pySuffixIdx n with
  | some i => n.take i ++ zipExt
  | none => n ++ zipExt

/-- `Path.with_suffix(".zip")` on a full path rewrites the final component. -/
def withSuffixZipPath (p : FPath) : FPath :=
  p.dropLast ++ [pyWithSuffixZip (pathName p)]

/-! ### Glob patterns used by retention pruning -/

/-- Whether name `n` matches the glob `f"{folder}_backup_*"` (with `*`
matching any, possibly empty, sequence of characters). -/
def matchesBackupName (folder n : Name) : Bool :=
  (folder ++ bkSep).isPrefixOf n

/-- Whether name `n` matches the glob `f"{folder}_backup_*.zip"`. -/
def matchesZipName (folder n : Name) : Bool :=
  (folder ++ bkSep).isPrefixOf n && zipExt.isSuffixOf n
    && decide ((folder ++ bkSep).length + zipExt.length ≤ n.length)

/-- Whether `p` is a direct child of `bdir` whose name matches
`f"{folder}_backup_*.zip"` — what `backup_dir.glob(backup_pattern + ".zip")`
yields. -/
def isZipBackupChild (bdir : FPath) (folder : Name) (p : FPath) : Bool :=
  decide (p.length = bdir.length + 1) && bdir.isPrefixOf p
    && matchesZipName folder (pathName p)

/-- Whether `p` is a direct child of `bdir` whose name matches
`f"{folder}_backup_*"` — what `backup_dir.glob(backup_pattern)` yields. -/
def isBackupChild (bdir : FPath) (folder : Name) (p : FPath) : Bool :=
  decide (p.length = bdir.length + 1) && bdir.isPrefixOf p
    && matchesBackupName folder (pathName p)

/-- The entries `backup_dir.glob(backup_pattern + ".zip")` lists. -/
def zipChildren (fs : FS) (bdir : FPath) (folder : Name) : List FSEntry :=
  fs.filter (fun e => isZipBackupChild bdir folder e.path)

/-- The entries `backup_dir.glob(backup_pattern)` would list (any kind). -/
def patternChildren (fs : FS) (bdir : FPath) (folder : Name) : List FSEntry :=
  fs.filter (fun e => isBackupChild bdir folder e.path)

/-! ### Retention pruning (`cleanup_old_backups`) -/

/-- Python's `xs[m:]` for an `int` slice start `m`: non-negative starts drop
`m` items from the front, negative starts keep only the last `|m|` items
(clamped). -/
def pySliceFrom (m : Int) (xs : List α) : List α :=
  if 0 ≤ m then xs.drop m.toNat
  else xs.drop (xs.length - (-m).toNat)

/-- Descending-mtime comparison used by `sorted(..., key=os.path.getmtime,
reverse=True)`. -/
def newerFirst (a b : FSEntry) : Prop := b.mtime ≤ a.mtime

instance : DecidableRel newerFirst := fun a b => Nat.decLe b.mtime a.mtime

instance : IsTotal FSEntry newerFirst := ⟨fun a b => Nat.le_total b.mtime a.mtime⟩

instance : IsTrans FSEntry newerFirst := ⟨fun _ _ _ h1 h2 => Nat.le_trans h2 h1⟩

/-- One deletion step of the pruning loop: `unlink()` for files, `rmtree`
for directories, and a silent no-op when the path is gone. -/
def deleteBackupEntry (fs : FS) (p : FPath) : FS :=
  if fsIsFile fs p then fs.filter (fun e => decide (e.path ≠ p))
  else if fsIsDir fs p then removeTree fs p
  else fs

/-- `cleanup_old_backups(backup_dir, folder_name, max_backups)`.

The Python source computes
`backup_dir.glob(backup_pattern + ".zip") or backup_dir.glob(backup_pattern)`;
both operands are generators and a generator object is always truthy, so the
`or` invariably takes the first operand: only `.zip`-named children are ever
listed, whether or not any exist.  The sorted list is sliced with
`backups[max_backups:]` and each entry beyond the slice start is deleted. -/
def cleanup_old_backups (fs : FS) (bdir : FPath) (folder : Name)
    (maxBackups : Int) : FS :=
  let sortedBackups := List.insertionSort newerFirst (zipChildren fs bdir folder)
  let toDelete := pySliceFrom maxBackups sortedBackups
  toDelete.foldl (fun acc e => deleteBackupEntry acc e.path) fs

/-! ### Exceptions, messages and the environment -/

/-- The Python exception classes the program distinguishes. -/
inductive PyExn
  | permissionError
  | fileExistsError
  | notADirectoryError
  | shutilError
  | otherError
deriving DecidableEq

/-- The failure messages of `backup.py`, by category. -/
inductive Msg
  | sourceMissing
  | sourceNotDir
  | noPermissionMkdir
  | noSpace
  | permissionDenied
  | copyFailed
  | unexpected
deriving DecidableEq

/-- The payload of the returned `Tuple[bool, Optional[str]]`: a failure
message or the `str` of the backup path. -/
inductive BRes
  | msg (m : Msg)
  | path (p : FPath)
deriving DecidableEq

/-- Result of one `create_backup` call: the final filesystem, the returned
`(success, result)` pair and the logged backup size, or an uncaught
exception. -/
inductive Outcome
  | ok (fs : FS) (success : Bool) (res : BRes) (reportedSize : Nat)
  | raised (e : PyExn)
deriving DecidableEq

/-- Ambient facts a run depends on that are not part of the filesystem:
the clock, free disk space, and injected I/O failures. -/
structure Env where
  /-- mtime given to newly written files. -/
  now : Nat
  /-- `datetime.datetime.now()` broken down, for `strftime`. -/
  localTime : LocalTime
  /-- whether `get_directory_size`/`shutil.disk_usage` complete without
  raising. -/
  measureOk : Bool
  /-- `shutil.disk_usage(backup_path).free`. -/
  free : Nat
  /-- whether creating the backup directory is permitted. -/
  mkdirPermission : Bool
  /-- exception raised by `shutil.copytree`, if any. -/
  copyResult : Option PyExn
  /-- whether opening/creating the zip archive file succeeds. -/
  zipCreateOk : Bool
  /-- whether `zipf.write` succeeds for the file at a given path. -/
  addOk : FPath → Bool

/-! ### Validation (`validate_paths`, `check_disk_space`,
`get_directory_size`) -/

/-- `get_directory_size(path)`: total size of the regular files under the
path (per-file `OSError` is skipped; the model has no such failures). -/
def get_directory_size (fs : FS) (p : FPath) : Nat :=
  (filesUnder fs p).foldl (fun a e => a + e.2.length) 0

/-- `check_disk_space(source_path, backup_path)`: requires twice the source
size to be free; if measuring raises, the failure is logged and the check
passes. -/
def check_disk_space (fs : FS) (env : Env) (source : FPath) : Bool :=
  if ¬ env.measureOk then true
  else if env.free < get_directory_size fs source * 2 then false
  else true

/-- `backup_path.mkdir(parents=True, exist_ok=True)`: a no-op on an existing
directory, `FileExistsError` when the path exists as a non-directory,
`NotADirectoryError` when a proper ancestor exists as a non-directory,
`PermissionError` without permission, and otherwise creates the missing
directories. -/
def mkdirParentsExistOk (fs : FS) (p : FPath) (env : Env) : Except PyExn FS :=
  if fsIsDir fs p then .ok fs
  else if fsExists fs p then .error .fileExistsError
  else if (List.range p.length).any
      (fun k => fsExists fs (p.take (k + 1)) && !(fsIsDir fs (p.take (k + 1)))) then
    .error .notADirectoryError
  else if env.mkdirPermission then
    .ok ((List.range p.length).foldl
      (fun acc k =>
        if fsExists acc (p.take (k + 1)) then acc
        else fsInsert acc (p.take (k + 1)) .dir env.now) fs)
  else .error .permissionError

/-- `validate_paths(source_dir, backup_dir)`: source must exist and be a
directory, the destination is created if missing (only `PermissionError` is
caught there), and the advisory disk-space check runs last.  Returns the
possibly-extended filesystem and `None` on success or the failure message. -/
def validate_paths (fs : FS) (env : Env) (source bdir : FPath) :
    Except PyExn (FS × Option Msg) :=
  if ¬ fsExists fs source then .ok (fs, some .sourceMissing)
  else if ¬ fsIsDir fs source then .ok (fs, some .sourceNotDir)
  else
    match mkdirParentsExistOk fs bdir env with
    | .error .permissionError => .ok (fs, some .noPermissionMkdir)
    | .error e => .error e
    | .ok fs1 =>
        if ¬ check_disk_space fs1 env source then .ok (fs1, some .noSpace)
        else .ok (fs1, none)

/-! ### Archiving (`create_zip_archive`) and the main entry point
(`create_backup`) -/

/-- `create_zip_archive(source_backup_path, original_source)`: the zip path
is `source_backup_path.with_suffix(".zip")`; the entries come from iterating
`original_source.rglob("*")` — the ORIGINAL source tree, not the fresh copy —
keeping `is_file()` hits, each stored under `file_path.relative_to(
original_source)`.  A failing `zipf.write` is only logged, so entries that
fail to add are silently dropped; only a failure of the outer `with` block
yields `None`. -/
def create_zip_archive (fs : FS) (sourceBackupPath origSource : FPath)
    (env : Env) : Option (FPath × List (FPath × String)) :=
  if ¬ env.zipCreateOk then none
  else
    some (withSuffixZipPath sourceBackupPath,
      (filesUnder fs origSource).filter (fun e => env.addOk (origSource ++ e.1)))

/-- `create_backup(source_dir, backup_dir, max_backups, create_zip)`.

`validate_paths` runs BEFORE the `try` block, so exceptions it lets through
propagate to the caller; everything inside the `try` is caught
(`PermissionError`, `shutil.Error`, then bare `Exception`) and turned into a
`(False, message)` result.  On the success path: derive the timestamped name,
`shutil.copytree` the source, optionally archive and delete the uncompressed
copy, prune old backups, and report `(True, str(path))` together with the
logged size (`0` when the reported path no longer exists). -/
def create_backup (fs0 : FS) (env : Env) (source bdir : FPath)
    (maxBackups : Int) (createZip : Bool) : Outcome :=
  match validate_paths fs0 env source bdir with
  | .error e => .raised e
  | .ok (fs1, some m) => .ok fs1 false (.msg m) 0
  | .ok (fs1, none) =>
    let ts := fmtTimestamp env.localTime
    let folder := pathName source
    let bname := backupName folder ts
    let bfull := bdir ++ [bname]
    if fsExists fs1 bfull then
      .ok fs1 false (.msg .unexpected) 0
    else
      match env.copyResult with
      | some .permissionError => .ok fs1 false (.msg .permissionDenied) 0
      | some .shutilError => .ok fs1 false (.msg .copyFailed) 0
      | some _ => .ok fs1 false (.msg .unexpected) 0
      | none =>
        let fs2 := copytreeFS fs1 source bfull
        let step :=
          if createZip then
            match create_zip_archive fs2 bfull source env with
            | some (zp, entries) =>
                (removeTree (fsInsert fs2 zp (.zip entries) env.now) bfull, zp)
            | none => (fs2, bfull)
          else (fs2, bfull)
        let fs4 := cleanup_old_backups step.1 bdir folder maxBackups
        let size :=
          match fsLookup fs4 step.2 with
          | some e => stSize e.node
          | none => 0
        .ok fs4 true (.path step.2) size

/-- Extract a backup's contents for comparison with the source: the entry
list of a zip archive, or the files under an uncompressed copy. -/
def backupContents (fs : FS) (p : FPath) : Option (List (FPath × String)) :=
  match fsLookup fs p with
  | some ⟨_, .zip es, _⟩ => some es
  | some ⟨_, .dir, _⟩ => some (filesUnder fs p)
  | _ => none

/-! ### Helper lemmas: digits and timestamps -/

theorem natDigitsAux_mem {fuel n : Nat} {c : Char}
    (h : c ∈ natDigitsAux fuel n) : ∃ d, d < 10 ∧ c = digitChar d := by
  induction fuel generalizing n with
  | zero => simp [natDigitsAux] at h
  | succ fuel ih =>
      rw [natDigitsAux] at h
      split at h
      · next hlt =>
          simp only [List.mem_singleton] at h
          exact ⟨n, hlt, h⟩
      · next hge =>
          rcases List.mem_append.mp h with h1 | h1
          · exact ih h1
          · simp only [List.mem_singleton] at h1
            exact ⟨n % 10, Nat.mod_lt _ (by omega), h1⟩

theorem natDigits_mem {n : Nat} {c : Char} (h : c ∈ natDigits n) :
    ∃ d, d < 10 ∧ c = digitChar d := natDigitsAux_mem h

theorem natDigits_ne_nil (n : Nat) : natDigits n ≠ [] := by
  rw [natDigits, natDigitsAux]
  split
  · simp
  · exact fun h => by simp at h

theorem natDigits_getLast? (n : Nat) :
    (natDigits n).getLast? = some (digitChar (n % 10)) := by
  rw [natDigits, natDigitsAux]
  split
  · next hlt => rw [Nat.mod_eq_of_lt hlt]; rfl
  · rw [List.getLast?_append_of_ne_nil _ (by simp)]; rfl

theorem digitChar_ne_dot {d : Nat} (h : d < 10) : digitChar d ≠ '.' := by
  interval_cases d <;> decide

theorem digitChar_ne_p {d : Nat} (h : d < 10) : digitChar d ≠ 'p' := by
  interval_cases d <;> decide

theorem dot_not_mem_padNum (w n : Nat) : '.' ∉ padNum w n := by
  intro h
  rcases List.mem_append.mp h with h1 | h1
  · exact absurd (List.eq_of_mem_replicate h1) (by decide)
  · rcases natDigits_mem h1 with ⟨d, hd, he⟩
    exact digitChar_ne_dot hd he.symm

theorem padNum_ne_nil (w n : Nat) : padNum w n ≠ [] := by
  intro h
  rcases List.append_eq_nil.mp h with ⟨_, h2⟩
  exact natDigits_ne_nil n h2

theorem padNum_getLast? (w n : Nat) :
    (padNum w n).getLast? = some (digitChar (n % 10)) := by
  rw [padNum, List.getLast?_append_of_ne_nil _ (natDigits_ne_nil n)]
  exact natDigits_getLast? n

theorem dot_not_mem_fmtTimestamp (t : LocalTime) : '.' ∉ fmtTimestamp t := by
  intro h
  rw [fmtTimestamp] at h
  simp only [List.mem_append, List.mem_singleton] at h
  have h4 := dot_not_mem_padNum 4 t.year
  have hmo := dot_not_mem_padNum 2 t.month
  have hd := dot_not_mem_padNum 2 t.day
  have hh := dot_not_mem_padNum 2 t.hour
  have hmi := dot_not_mem_padNum 2 t.minute
  have hs := dot_not_mem_padNum 2 t.second
  have c1 : ('.' : Char) ≠ '-' := by decide
  have c2 : ('.' : Char) ≠ '_' := by decide
  tauto

theorem fmtTimestamp_getLast? (t : LocalTime) :
    (fmtTimestamp t).getLast? = some (digitChar (t.second % 10)) := by
  rw [fmtTimestamp, List.getLast?_append_of_ne_nil _ (padNum_ne_nil 2 t.second)]
  exact padNum_getLast? 2 t.second

/-! ### Helper lemmas: names, suffixes and glob matching -/

theorem foldl_dot_none {n : Name} (l : List Nat) (h : '.' ∉ n) :
    l.foldl (fun acc i => if n.get? i = some '.' then some i else acc)
      (none : Option Nat) = none := by
  induction l with
  | nil => rfl
  | cons a l ih =>
      simp only [List.foldl_cons]
      rw [if_neg, ih]
      intro hc
      exact h (List.get?_mem hc)

theorem lastIdxOfDot_eq_none {n : Name} (h : '.' ∉ n) : lastIdxOfDot n = none :=
  foldl_dot_none _ h

theorem pySuffixIdx_eq_none {n : Name} (h : '.' ∉ n) : pySuffixIdx n = none := by
  rw [pySuffixIdx, lastIdxOfDot_eq_none h]

theorem pyWithSuffixZip_of_dotFree {n : Name} (h : '.' ∉ n) :
    pyWithSuffixZip n = n ++ zipExt := by
  rw [pyWithSuffixZip, pySuffixIdx_eq_none h]

theorem pyWithSuffixZip_getLast? (n : Name) :
    (pyWithSuffixZip n).getLast? = some 'p' := by
  rw [pyWithSuffixZip]
  rcases h : pySuffixIdx n with _ | i <;>
    simp [List.getLast?_append_of_ne_nil _ (show zipExt ≠ [] by decide), zipExt]

theorem dot_not_mem_backupName {folder : Name} (t : LocalTime)
    (h : '.' ∉ folder) : '.' ∉ backupName folder (fmtTimestamp t) := by
  intro hc
  rw [backupName] at hc
  rcases List.mem_append.mp hc with h1 | h1
  · rcases List.mem_append.mp h1 with h2 | h2
    · exact h h2
    · exact absurd h2 (by decide)
  · exact dot_not_mem_fmtTimestamp t h1

theorem fmtTimestamp_ne_nil (t : LocalTime) : fmtTimestamp t ≠ [] := by
  intro h
  rw [fmtTimestamp] at h
  exact padNum_ne_nil 2 t.second (List.append_eq_nil.mp h).2

theorem backupName_getLast? (folder : Name) (t : LocalTime) :
    (backupName folder (fmtTimestamp t)).getLast? =
      some (digitChar (t.second % 10)) := by
  rw [backupName, List.getLast?_append_of_ne_nil _ (fmtTimestamp_ne_nil t)]
  exact fmtTimestamp_getLast? t

theorem backupName_not_zipSuffix (folder : Name) (t : LocalTime) :
    zipExt.isSuffixOf (backupName folder (fmtTimestamp t)) = false := by
  cases hb : zipExt.isSuffixOf (backupName folder (fmtTimestamp t)) with
  | false => rfl
  | true =>
      exfalso
      rcases List.isSuffixOf_iff_suffix.mp hb with ⟨pre, hpre⟩
      have hlast : (backupName folder (fmtTimestamp t)).getLast? = some 'p' := by
        rw [← hpre,
          List.getLast?_append_of_ne_nil _ (show zipExt ≠ [] by decide)]
        rfl
      rw [backupName_getLast?] at hlast
      have : digitChar (t.second % 10) = 'p' := by injection hlast
      exact digitChar_ne_p (Nat.mod_lt _ (by omega)) this

theorem matchesZipName_backupName (folder folder' : Name) (t : LocalTime) :
    matchesZipName folder' (backupName folder (fmtTimestamp t)) = false := by
  rw [matchesZipName, backupName_not_zipSuffix]
  simp

theorem isPrefixOf_append_self {α : Type} [BEq α] [LawfulBEq α] (l t : List α) :
    l.isPrefixOf (l ++ t) = true :=
  List.isPrefixOf_iff_prefix.mpr (List.prefix_append l t)

theorem matchesZipName_withSuffix {folder : Name} (t : LocalTime)
    (h : '.' ∉ folder) :
    matchesZipName folder
      (pyWithSuffixZip (backupName folder (fmtTimestamp t))) = true := by
  rw [pyWithSuffixZip_of_dotFree (dot_not_mem_backupName t h), matchesZipName]
  have h1 : (folder ++ bkSep).isPrefixOf
      (backupName folder (fmtTimestamp t) ++ zipExt) = true := by
    rw [backupName, List.append_assoc]
    exact isPrefixOf_append_self _ _
  have h2 : zipExt.isSuffixOf (backupName folder (fmtTimestamp t) ++ zipExt)
      = true :=
    List.isSuffixOf_iff_suffix.mpr ⟨_, rfl⟩
  rw [h1, h2]
  simp only [Bool.true_and, decide_eq_true_eq, List.length_append, backupName]
  omega

theorem append_singleton_inj {α : Type} [BEq α] [LawfulBEq α] {l : List α} {a b : α}
    (h : (l ++ [a]).isPrefixOf (l ++ [b]) = true) : a = b := by
  have hp := List.isPrefixOf_iff_prefix.mp h
  have := List.IsPrefix.eq_of_length hp (by simp)
  simpa using this

theorem zipName_ne_backupName (folder folder' : Name) (t t' : LocalTime) :
    pyWithSuffixZip (backupName folder' (fmtTimestamp t')) ≠
      backupName folder (fmtTimestamp t) := by
  intro h
  have h1 := pyWithSuffixZip_getLast? (backupName folder' (fmtTimestamp t'))
  rw [h, backupName_getLast?] at h1
  have : digitChar (t.second % 10) = 'p' := by injection h1
  exact digitChar_ne_p (Nat.mod_lt _ (by omega)) this

/-! ### Helper lemmas: filesystem lookup and deletion -/

theorem fsLookup_eq_none {fs : FS} {p : FPath} :
    fsLookup fs p = none ↔ ∀ e ∈ fs, e.path ≠ p := by
  induction fs with
  | nil => simp [fsLookup]
  | cons e rest ih =>
      rw [fsLookup]
      split
      · next he => simp [he]
      · next he => simp [ih, he]

theorem fsLookup_mem {fs : FS} {p : FPath} {e : FSEntry}
    (h : fsLookup fs p = some e) : e ∈ fs ∧ e.path = p := by
  induction fs with
  | nil => simp [fsLookup] at h
  | cons e' rest ih =>
      rw [fsLookup] at h
      split at h
      · next he =>
          injection h with h
          subst h
          exact ⟨List.mem_cons_self _ _, he⟩
      · next he =>
          rcases ih h with ⟨h1, h2⟩
          exact ⟨List.mem_cons_of_mem _ h1, h2⟩

theorem fsExists_eq_false {fs : FS} {p : FPath} :
    fsExists fs p = false ↔ ∀ e ∈ fs, e.path ≠ p := by
  rw [fsExists]
  rcases he : fsLookup fs p with _ | e
  · exact iff_of_true rfl (fsLookup_eq_none.mp he)
  · refine iff_of_false (by simp) (fun h => ?_)
    rcases fsLookup_mem he with ⟨h1, h2⟩
    exact h e h1 h2

theorem fsExists_of_isDir {fs : FS} {p : FPath} (h : fsIsDir fs p = true) :
    fsExists fs p = true := by
  rw [fsIsDir] at h
  rw [fsExists]
  split at h
  · next he => rw [he]; rfl
  · exact absurd h (by simp)

theorem fsLookup_none_of_not_file_not_dir {fs : FS} {p : FPath}
    (h1 : fsIsFile fs p = false) (h2 : fsIsDir fs p = false) :
    fsLookup fs p = none := by
  rcases he : fsLookup fs p with _ | e
  · rfl
  · exfalso
    rcases e with ⟨q, n, t⟩
    cases n
    · rw [fsIsFile, he] at h1; simp at h1
    · rw [fsIsFile, he] at h1; simp at h1
    · rw [fsIsDir, he] at h2; simp at h2

theorem mem_deleteBackupEntry_of {fs : FS} {p : FPath} {e : FSEntry}
    (h : e ∈ deleteBackupEntry fs p) : e ∈ fs := by
  rw [deleteBackupEntry] at h
  split at h
  · exact (List.mem_filter.mp h).1
  · split at h
    · exact (List.mem_filter.mp (by rw [removeTree] at h; exact h)).1
    · exact h

theorem path_ne_of_mem_deleteBackupEntry {fs : FS} {p : FPath} {e : FSEntry}
    (h : e ∈ deleteBackupEntry fs p) : e.path ≠ p := by
  rw [deleteBackupEntry] at h
  split at h
  · have := (List.mem_filter.mp h).2
    simpa using this
  · split at h
    · next h1 h2 =>
        rw [removeTree] at h
        have := (List.mem_filter.mp h).2
        simp only [decide_eq_true_eq] at this
        intro hc
        apply this
        rw [hc]
        exact List.isPrefixOf_iff_prefix.mpr (List.prefix_refl p)
    · next h1 h2 =>
        simp only [Bool.not_eq_true] at h1 h2
        exact fsLookup_eq_none.mp (fsLookup_none_of_not_file_not_dir h1 h2) e h

theorem mem_deleteBackupEntry_keep {fs : FS} {p : FPath} {e : FSEntry}
    (he : e ∈ fs) (hp : ¬ p <+: e.path) : e ∈ deleteBackupEntry fs p := by
  rw [deleteBackupEntry]
  split
  · refine List.mem_filter.mpr ⟨he, ?_⟩
    simp only [decide_eq_true_eq]
    intro hc
    exact hp (hc ▸ List.prefix_refl _)
  · split
    · rw [removeTree]
      refine List.mem_filter.mpr ⟨he, ?_⟩
      simp only [decide_eq_true_eq]
      intro hc
      exact hp (List.isPrefixOf_iff_prefix.mp hc)
    · exact he

theorem foldl_delete_subset {D : List FSEntry} {fs : FS} {e : FSEntry}
    (h : e ∈ D.foldl (fun acc d => deleteBackupEntry acc d.path) fs) :
    e ∈ fs := by
  induction D generalizing fs with
  | nil => exact h
  | cons d D ih => exact mem_deleteBackupEntry_of (ih h)

theorem foldl_delete_keep {D : List FSEntry} {fs : FS} {e : FSEntry}
    (he : e ∈ fs) (h : ∀ d ∈ D, ¬ d.path <+: e.path) :
    e ∈ D.foldl (fun acc d => deleteBackupEntry acc d.path) fs := by
  induction D generalizing fs with
  | nil => exact he
  | cons d D ih =>
      exact ih (mem_deleteBackupEntry_keep he (h d (List.mem_cons_self _ _)))
        (fun d' hd' => h d' (List.mem_cons_of_mem _ hd'))

theorem foldl_delete_removes {D : List FSEntry} {fs : FS} {d : FSEntry}
    (hd : d ∈ D) :
    ∀ e ∈ D.foldl (fun acc a => deleteBackupEntry acc a.path) fs,
      e.path ≠ d.path := by
  induction D generalizing fs with
  | nil => exact absurd hd (List.not_mem_nil d)
  | cons a D ih =>
      intro e he
      rcases List.mem_cons.mp hd with h | h
      · subst h
        -- after the first step there is no entry at `d.path`; the remaining
        -- steps only remove entries
        have habsent : ∀ x ∈ deleteBackupEntry fs d.path, x.path ≠ d.path :=
          fun x hx => path_ne_of_mem_deleteBackupEntry hx
        exact habsent e (foldl_delete_subset he)
      · exact ih h e he

/-! ### Helper lemmas: prefixes, `filesUnder` and `copytreeFS` -/

theorem prefixComparable {α : Type} {l₁ l₂ l₃ : List α}
    (h1 : l₁ <+: l₃) (h2 : l₂ <+: l₃) : l₁ <+: l₂ ∨ l₂ <+: l₁ := by
  rcases Nat.le_total l₁.length l₂.length with h | h
  · exact Or.inl (List.prefix_of_prefix_length_le h1 h2 h)
  · exact Or.inr (List.prefix_of_prefix_length_le h2 h1 h)

theorem eq_append_drop_of_isPrefixOf {α : Type} [BEq α] [LawfulBEq α]
    {l q : List α} (h : l.isPrefixOf q = true) :
    l ++ q.drop l.length = q := by
  rcases List.isPrefixOf_iff_prefix.mp h with ⟨t, rfl⟩
  rw [List.drop_left]

theorem filesUnder_append (fs1 fs2 : FS) (r : FPath) :
    filesUnder (fs1 ++ fs2) r = filesUnder fs1 r ++ filesUnder fs2 r := by
  rw [filesUnder, List.filterMap_append]
  rfl

theorem filesUnder_eq_nil {l : FS} {root : FPath}
    (h : ∀ e ∈ l, ¬ root <+: e.path) : filesUnder l root = [] := by
  rw [filesUnder, List.filterMap_eq_nil_iff]
  intro e he
  cases hn : e.node with
  | file c =>
      dsimp only
      rw [if_neg]
      rintro ⟨hc, -⟩
      exact h e he (List.isPrefixOf_iff_prefix.mp hc)
  | zip es => rfl
  | dir => rfl

theorem filesUnder_cons (e : FSEntry) (l : FS) (root : FPath) :
    filesUnder (e :: l) root =
      (if root.isPrefixOf e.path ∧ e.path ≠ root then
        match e.node with
        | .file c => [(e.path.drop root.length, c)]
        | _ => []
      else []) ++ filesUnder l root := by
  rw [filesUnder, filesUnder, List.filterMap_cons]
  by_cases hc : root.isPrefixOf e.path = true ∧ e.path ≠ root
  · rw [if_pos hc]
    cases hn : e.node with
    | file c =>
        dsimp only
        rw [if_pos hc]
        rfl
    | zip es => rfl
    | dir => rfl
  · rw [if_neg hc]
    cases hn : e.node with
    | file c =>
        dsimp only
        rw [if_neg hc]
        rfl
    | zip es => rfl
    | dir => rfl

theorem filesUnder_copyPart (fs : FS) (src dst : FPath) :
    filesUnder (fs.filterMap (fun e =>
      if src.isPrefixOf e.path then
        some ⟨dst ++ e.path.drop src.length, e.node, e.mtime⟩
      else none)) dst = filesUnder fs src := by
  induction fs with
  | nil => rfl
  | cons e rest ih =>
      rw [List.filterMap_cons]
      by_cases hp : src.isPrefixOf e.path = true
      · rw [if_pos hp, filesUnder_cons, ih, filesUnder_cons]
        congr 1
        have hdecomp := eq_append_drop_of_isPrefixOf hp
        by_cases heq : e.path = src
        · have hrel : e.path.drop src.length = [] := by
            rw [heq, List.drop_length]
          rw [if_neg, if_neg]
          · rintro ⟨-, hne⟩
            exact hne heq
          · rintro ⟨-, hne⟩
            rw [hrel, List.append_nil] at hne
            exact hne rfl
        · have hrel : e.path.drop src.length ≠ [] := by
            intro h0
            rw [h0, List.append_nil] at hdecomp
            exact heq hdecomp.symm
          have hc1 : dst.isPrefixOf (dst ++ e.path.drop src.length) = true ∧
              dst ++ e.path.drop src.length ≠ dst := by
            constructor
            · exact isPrefixOf_append_self dst (e.path.drop src.length)
            · intro h0
              have := congrArg List.length h0
              rw [List.length_append] at this
              exact hrel (List.length_eq_zero.mp (by omega))
          rw [if_pos hc1, if_pos ⟨hp, heq⟩]
          cases e.node with
          | file c => rw [List.drop_left]
          | zip es => rfl
          | dir => rfl
      · rw [if_neg hp, ih, filesUnder_cons, if_neg, List.nil_append]
        rintro ⟨hc, -⟩
        exact hp hc

theorem filesUnder_copytreeFS_dst {fs : FS} {src dst : FPath}
    (hclean : ∀ e ∈ fs, ¬ dst <+: e.path) :
    filesUnder (copytreeFS fs src dst) dst = filesUnder fs src := by
  rw [copytreeFS, filesUnder_append, filesUnder_copyPart,
    filesUnder_eq_nil hclean, List.append_nil]

theorem filesUnder_copytreeFS_src {fs : FS} {src dst : FPath}
    (h1 : ¬ src <+: dst) (h2 : ¬ dst <+: src) :
    filesUnder (copytreeFS fs src dst) src = filesUnder fs src := by
  rw [copytreeFS, filesUnder_append]
  have hnil : filesUnder (fs.filterMap (fun e =>
      if src.isPrefixOf e.path then
        some ⟨dst ++ e.path.drop src.length, e.node, e.mtime⟩
      else none)) src = [] := by
    apply filesUnder_eq_nil
    intro e' he' hc
    rcases List.mem_filterMap.mp he' with ⟨e, -, hfe⟩
    split at hfe
    · injection hfe with hfe
      rw [← hfe] at hc
      rcases prefixComparable hc (List.prefix_append dst _) with h | h
      · exact h1 h
      · exact h2 h
    · exact Option.noConfusion hfe
  rw [hnil, List.nil_append]

/-! ### Helper lemmas: validation and the happy path of `create_backup` -/

theorem fsExists_eq_true_of_mem {fs : FS} {e : FSEntry} {p : FPath}
    (he : e ∈ fs) (hp : e.path = p) : fsExists fs p = true := by
  cases hx : fsExists fs p with
  | true => rfl
  | false => exact absurd hp (fsExists_eq_false.mp hx e he)

theorem exists_dir_entry_of_isDir {fs : FS} {p : FPath}
    (h : fsIsDir fs p = true) : ∃ mt, (⟨p, Node.dir, mt⟩ : FSEntry) ∈ fs := by
  rw [fsIsDir] at h
  rcases he : fsLookup fs p with _ | e
  · rw [he] at h
    exact absurd h (by simp)
  · rcases fsLookup_mem he with ⟨hmem, hpath⟩
    rcases e with ⟨q, n, mt⟩
    cases n with
    | file c => rw [he] at h; exact absurd h (by simp)
    | zip es => rw [he] at h; exact absurd h (by simp)
    | dir =>
        refine ⟨mt, ?_⟩
        cases hpath
        exact hmem

theorem validate_paths_ok {fs : FS} {env : Env} {source bdir : FPath}
    (hs : fsIsDir fs source = true) (hb : fsIsDir fs bdir = true)
    (hspace : check_disk_space fs env source = true) :
    validate_paths fs env source bdir = .ok (fs, none) := by
  rw [validate_paths, if_neg (by rw [fsExists_of_isDir hs]; simp),
    if_neg (by rw [hs]; simp), mkdirParentsExistOk, if_pos hb]
  dsimp only
  rw [if_neg (by rw [hspace]; simp)]

theorem withSuffixZipPath_append (l : FPath) (a : Name) :
    withSuffixZipPath (l ++ [a]) = l ++ [pyWithSuffixZip a] := by
  rw [withSuffixZipPath, pathName]
  congr 1
  · rw [List.dropLast_concat]
  · rw [List.getLast?_concat]
    rfl

theorem create_backup_run {fs : FS} {env : Env} {source bdir : FPath}
    {m : Int} {cz : Bool}
    (hs : fsIsDir fs source = true) (hb : fsIsDir fs bdir = true)
    (hspace : check_disk_space fs env source = true)
    (hfresh : fsExists fs (bdir ++
      [backupName (pathName source) (fmtTimestamp env.localTime)]) = false)
    (hcopy : env.copyResult = none) :
    create_backup fs env source bdir m cz =
      (let folder := pathName source
       let bfull := bdir ++ [backupName folder (fmtTimestamp env.localTime)]
       let fs2 := copytreeFS fs source bfull
       let step :=
         if cz then
           match create_zip_archive fs2 bfull source env with
           | some (zp, entries) =>
               (removeTree (fsInsert fs2 zp (.zip entries) env.now) bfull, zp)
           | none => (fs2, bfull)
         else (fs2, bfull)
       let fs4 := cleanup_old_backups step.1 bdir folder m
       Outcome.ok fs4 true (.path step.2)
         (match fsLookup fs4 step.2 with
           | some e => stSize e.node
           | none => 0)) := by
  rw [create_backup, validate_paths_ok hs hb hspace]
  dsimp only
  rw [if_neg (by rw [hfresh]; simp), hcopy]

theorem mem_copytreeFS_left {fs : FS} {src dst : FPath} {e : FSEntry}
    (he : e ∈ fs) (hp : src.isPrefixOf e.path = true) :
    (⟨dst ++ e.path.drop src.length, e.node, e.mtime⟩ : FSEntry) ∈
      copytreeFS fs src dst := by
  rw [copytreeFS]
  apply List.mem_append_left
  exact List.mem_filterMap.mpr ⟨e, he, by rw [if_pos hp]⟩

theorem mem_copytreeFS_elim {fs : FS} {src dst : FPath} {e : FSEntry}
    (he : e ∈ copytreeFS fs src dst) :
    e ∈ fs ∨ ∃ e0 ∈ fs, src.isPrefixOf e0.path = true ∧
      e = ⟨dst ++ e0.path.drop src.length, e0.node, e0.mtime⟩ := by
  rw [copytreeFS] at he
  rcases List.mem_append.mp he with h | h
  · rcases List.mem_filterMap.mp h with ⟨e0, he0, hf⟩
    right
    by_cases hp : src.isPrefixOf e0.path = true
    · rw [if_pos hp] at hf
      injection hf with hf
      exact ⟨e0, he0, hp, hf.symm⟩
    · rw [if_neg hp] at hf
      exact absurd hf (by simp)
  · exact Or.inl h

theorem isZipBackupChild_append (bdir : FPath) (folder n : Name) :
    isZipBackupChild bdir folder (bdir ++ [n]) = matchesZipName folder n := by
  rw [isZipBackupChild, pathName, List.getLast?_concat]
  rw [isPrefixOf_append_self bdir [n]]
  simp

theorem isBackupChild_append (bdir : FPath) (folder n : Name) :
    isBackupChild bdir folder (bdir ++ [n]) = matchesBackupName folder n := by
  rw [isBackupChild, pathName, List.getLast?_concat]
  rw [isPrefixOf_append_self bdir [n]]
  simp

theorem append_singleton_not_isPrefixOf {l : FPath} {a b : Name} (h : a ≠ b) :
    (l ++ [a]).isPrefixOf (l ++ [b]) = false := by
  cases hb : (l ++ [a]).isPrefixOf (l ++ [b]) with
  | false => rfl
  | true => exact absurd (append_singleton_inj hb) h

theorem cleanup_of_no_matches {fs : FS} {bdir : FPath} {folder : Name}
    {m : Int} (h : zipChildren fs bdir folder = []) :
    cleanup_old_backups fs bdir folder m = fs := by
  rw [cleanup_old_backups, h]
  have h0 : List.insertionSort newerFirst ([] : List FSEntry) = [] := rfl
  rw [h0]
  have h1 : pySliceFrom m ([] : List FSEntry) = [] := by
    rw [pySliceFrom]
    split <;> rw [List.drop_nil]
  rw [h1]
  rfl

theorem cleanup_singleton_kept {fs : FS} {bdir : FPath} {folder : Name}
    {m : Int} {e : FSEntry} (h : zipChildren fs bdir folder = [e])
    (hm : 1 ≤ m) : cleanup_old_backups fs bdir folder m = fs := by
  rw [cleanup_old_backups, h]
  have h0 : List.insertionSort newerFirst [e] = [e] := rfl
  rw [h0]
  have h1 : pySliceFrom m [e] = [] := by
    rw [pySliceFrom, if_pos (by omega)]
    apply List.drop_eq_nil_of_le
    simp
    omega
  rw [h1]
  rfl

theorem cleanup_zero_removes_all {fs : FS} {bdir : FPath} {folder : Name} :
    ∀ e ∈ cleanup_old_backups fs bdir folder 0,
      e ∈ fs ∧ isZipBackupChild bdir folder e.path = false := by
  intro e he
  rw [cleanup_old_backups] at he
  have hslice : pySliceFrom 0 (List.insertionSort newerFirst
      (zipChildren fs bdir folder)) =
      List.insertionSort newerFirst (zipChildren fs bdir folder) := by
    rw [pySliceFrom, if_pos (by omega)]
    rfl
  rw [hslice] at he
  refine ⟨foldl_delete_subset he, ?_⟩
  cases hz : isZipBackupChild bdir folder e.path with
  | false => rfl
  | true =>
      exfalso
      have hmem : e ∈ List.insertionSort newerFirst
          (zipChildren fs bdir folder) :=
        (List.mem_insertionSort newerFirst).mpr
          (List.mem_filter.mpr ⟨foldl_delete_subset he, hz⟩)
      exact foldl_delete_removes hmem e he rfl

theorem isZipBackupChild_eq_false_of_length {bdir : FPath} {folder : Name}
    {p : FPath} (h : p.length ≠ bdir.length + 1) :
    isZipBackupChild bdir folder p = false := by
  rw [isZipBackupChild, decide_eq_false h]
  simp

theorem zipChildren_copytree {fs : FS} {bdir source : FPath}
    {folder : Name} {t : LocalTime}
    (hpre : ∀ e ∈ fs, isZipBackupChild bdir folder e.path = false) :
    zipChildren (copytreeFS fs source
      (bdir ++ [backupName folder (fmtTimestamp t)])) bdir folder = [] := by
  rw [zipChildren, List.filter_eq_nil_iff]
  intro e he
  rcases mem_copytreeFS_elim he with h | ⟨e0, -, -, hval⟩
  · rw [hpre e h]
    simp
  · subst hval
    by_cases hrel : e0.path.drop source.length = []
    · rw [hrel, List.append_nil, isZipBackupChild_append,
        matchesZipName_backupName]
      simp
    · rw [isZipBackupChild_eq_false_of_length (by
        simp only [List.length_append, List.length_cons, List.length_nil]
        have : 0 < (e0.path.drop source.length).length :=
          List.length_pos.mpr hrel
        omega)]
      simp

theorem zipChildren_archive {fs : FS} {bdir source : FPath} {folder : Name}
    {t : LocalTime} {entries : List (FPath × String)} {now : Nat}
    (hdot : '.' ∉ folder)
    (hpre : ∀ e ∈ fs, isZipBackupChild bdir folder e.path = false) :
    zipChildren
      (removeTree
        (fsInsert
          (copytreeFS fs source (bdir ++ [backupName folder (fmtTimestamp t)]))
          (bdir ++ [pyWithSuffixZip (backupName folder (fmtTimestamp t))])
          (.zip entries) now)
        (bdir ++ [backupName folder (fmtTimestamp t)]))
      bdir folder =
      [⟨bdir ++ [pyWithSuffixZip (backupName folder (fmtTimestamp t))],
        .zip entries, now⟩] := by
  have hne : backupName folder (fmtTimestamp t) ≠
      pyWithSuffixZip (backupName folder (fmtTimestamp t)) :=
    (zipName_ne_backupName folder folder t t).symm
  rw [fsInsert, removeTree, List.filter_cons_of_pos (by
    simp only [decide_eq_true_eq]
    rw [append_singleton_not_isPrefixOf hne]
    simp)]
  rw [zipChildren, List.filter_cons_of_pos (by
    rw [isZipBackupChild_append, matchesZipName_withSuffix t hdot])]
  congr 1
  rw [List.filter_eq_nil_iff]
  intro e he
  have hrm := (List.mem_filter.mp he).2
  simp only [decide_eq_true_eq] at hrm
  have he2 : e ∈ (copytreeFS fs source
      (bdir ++ [backupName folder (fmtTimestamp t)])).filter
      (fun x => decide (x.path ≠
        bdir ++ [pyWithSuffixZip (backupName folder (fmtTimestamp t))])) :=
    (List.mem_filter.mp he).1
  have he3 := (List.mem_filter.mp he2).1
  rcases mem_copytreeFS_elim he3 with h | ⟨e0, -, -, hval⟩
  · rw [hpre e h]
    simp
  · exfalso
    apply hrm
    rw [hval]
    exact isPrefixOf_append_self _ _

/-! ### Concrete fixtures used by counterexamples and witnesses -/

/-- A benign environment: clock at 100, plenty of free space, no injected
failures. -/
def env0 : Env :=
  { now := 100, localTime := ⟨2024, 1, 2, 3, 4, 5⟩, measureOk := true,
    free := 1000, mkdirPermission := true, copyResult := none,
    zipCreateOk := true, addOk := fun _ => true }

/-- Projection of an `Outcome` to its returned `(success, result)` pair. -/
def outView : Outcome → Option (Bool × BRes)
  | .ok _ s r _ => some (s, r)
  | .raised _ => none

/-- Boolean test for a non-exceptional `Except` value. -/
def isOkE {ε α : Type} : Except ε α → Bool
  | .ok _ => true
  | .error _ => false

/-! ### Claims -/

/-- A backup directory holding three uncompressed directory backups for the
source folder `data` (mtimes 1, 2, 3) and no `.zip` backups. -/
def fsC1 : FS :=
  [ ⟨["b".toList], .dir, 0⟩,
    ⟨["b".toList, "data_backup_2024-01-01_00-00-01".toList], .dir, 1⟩,
    ⟨["b".toList, "data_backup_2024-01-01_00-00-02".toList], .dir, 2⟩,
    ⟨["b".toList, "data_backup_2024-01-01_00-00-03".toList], .dir, 3⟩ ]

/-- C1: the claim says that after `cleanup_old_backups` exactly
`min(existing, max_backups)` backups remain regardless of whether they are
`.zip` archives or uncompressed directories.  The code violates this: the
glob expression `glob(pattern + ".zip") or glob(pattern)` always takes the
first generator (a generator object is truthy even when empty), so
uncompressed directory backups are never listed for deletion.  With three
directory backups matching the naming pattern and `max_backups = 1`, cleanup
deletes nothing: all three remain instead of `min(3, 1) = 1`. -/
theorem c1_dir_backups_never_pruned :
    cleanup_old_backups fsC1 ["b".toList] "data".toList 1 = fsC1 ∧
    (patternChildren fsC1 ["b".toList] "data".toList).length = 3 ∧
    zipChildren fsC1 ["b".toList] "data".toList = [] := by decide

/-- C4: if the source path does not exist, or exists but is not a directory,
`create_backup` returns a failure result with the corresponding message, the
filesystem is unchanged (no backup is created), and no exception escapes. -/
theorem c4_missing_source_fails (fs : FS) (env : Env) (source bdir : FPath)
    (m : Int) (cz : Bool)
    (h : fsExists fs source = false ∨ fsIsDir fs source = false) :
    create_backup fs env source bdir m cz =
        .ok fs false (.msg .sourceMissing) 0 ∨
      create_backup fs env source bdir m cz =
        .ok fs false (.msg .sourceNotDir) 0 := by
  rcases h with h | h
  · left
    rw [create_backup, validate_paths, if_pos (by rw [h]; simp)]
  · cases hx : fsExists fs source with
    | false =>
        left
        rw [create_backup, validate_paths, if_pos (by rw [hx]; simp)]
    | true =>
        right
        rw [create_backup, validate_paths, if_neg (by rw [hx]; simp),
          if_pos (by rw [h]; simp)]

/-- Witness for C4 at a concrete input: an empty filesystem has no source
directory, and `create_backup` reports the missing source. -/
theorem c4_missing_source_fails_w :
    (fsExists [] [["s".toList].head!] = false ∨
      fsIsDir [] [["s".toList].head!] = false) ∧
    (create_backup [] env0 [["s".toList].head!] ["b".toList] 10 true =
        .ok [] false (.msg .sourceMissing) 0 ∨
      create_backup [] env0 [["s".toList].head!] ["b".toList] 10 true =
        .ok [] false (.msg .sourceNotDir) 0) :=
  ⟨by decide,
    c4_missing_source_fails [] env0 [["s".toList].head!] ["b".toList] 10 true
      (by decide)⟩

/-- C7: the free-space check.  If measuring raises, the failure is logged and
validation proceeds (the check passes); if measuring succeeds, validation
fails with the insufficient-space message exactly when free space is strictly
below twice the measured source size. -/
theorem c7_disk_space_check :
    (∀ fs env source bdir, env.measureOk = false →
      fsIsDir fs source = true → fsIsDir fs bdir = true →
      validate_paths fs env source bdir = .ok (fs, none)) ∧
    (∀ fs env source bdir, env.measureOk = true →
      fsIsDir fs source = true → fsIsDir fs bdir = true →
      (validate_paths fs env source bdir = .ok (fs, some .noSpace) ↔
        env.free < get_directory_size fs source * 2)) := by
  constructor
  · intro fs env source bdir hm hs hb
    exact validate_paths_ok hs hb (by rw [check_disk_space, if_pos (by rw [hm]; simp)])
  · intro fs env source bdir hm hs hb
    by_cases hlt : env.free < get_directory_size fs source * 2
    · refine iff_of_true ?_ hlt
      have hchk : check_disk_space fs env source = false := by
        rw [check_disk_space, if_neg (by rw [hm]; simp), if_pos hlt]
      rw [validate_paths, if_neg (by rw [fsExists_of_isDir hs]; simp),
        if_neg (by rw [hs]; simp), mkdirParentsExistOk, if_pos hb]
      dsimp only
      rw [if_pos (by rw [hchk]; simp)]
    · refine iff_of_false ?_ hlt
      have hchk : check_disk_space fs env source = true := by
        rw [check_disk_space, if_neg (by rw [hm]; simp), if_neg hlt]
      rw [validate_paths_ok hs hb hchk]
      intro hcontra
      have := congrArg (fun x => match x with
        | Except.ok (_, some _) => true
        | _ => false) hcontra
      simp at this

/-- Witness for C7 at concrete inputs: a failed measurement passes
validation, and with measurement available the check fails exactly on small
free space. -/
theorem c7_disk_space_check_w :
    ((({ env0 with measureOk := false } : Env).measureOk = false ∧
      fsIsDir [⟨["s".toList], .dir, 0⟩, ⟨["b".toList], .dir, 0⟩]
        [["s".toList].head!] = true) ∧
      validate_paths [⟨["s".toList], .dir, 0⟩, ⟨["b".toList], .dir, 0⟩]
          { env0 with measureOk := false } [["s".toList].head!] ["b".toList] =
        .ok ([⟨["s".toList], .dir, 0⟩, ⟨["b".toList], .dir, 0⟩], none)) ∧
    (validate_paths
        [⟨["s".toList], .dir, 0⟩,
          ⟨["s".toList, "a.txt".toList], .file "hello", 1⟩,
          ⟨["b".toList], .dir, 0⟩]
        { env0 with free := 9 } [["s".toList].head!] ["b".toList] =
        .ok ([⟨["s".toList], .dir, 0⟩,
          ⟨["s".toList, "a.txt".toList], .file "hello", 1⟩,
          ⟨["b".toList], .dir, 0⟩], some .noSpace) ↔
      ({ env0 with free := 9 } : Env).free <
        get_directory_size
          [⟨["s".toList], .dir, 0⟩,
            ⟨["s".toList, "a.txt".toList], .file "hello", 1⟩,
            ⟨["b".toList], .dir, 0⟩] [["s".toList].head!] * 2) :=
  ⟨⟨⟨rfl, by decide⟩,
    c7_disk_space_check.1 _ { env0 with measureOk := false } _ ["b".toList]
      rfl (by decide) (by decide)⟩,
    c7_disk_space_check.2 _ { env0 with free := 9 } _ ["b".toList]
      rfl (by decide) (by decide)⟩

/-- A valid source directory next to a path `bfile` that exists as a regular
file and is passed as the backup destination. -/
def fsC3 : FS :=
  [ ⟨["s".toList], .dir, 0⟩,
    ⟨["s".toList, "a.txt".toList], .file "x", 1⟩,
    ⟨["bfile".toList], .file "x", 0⟩ ]

/-- C3 counterexample: the claim says `create_backup` never raises for any
input.  But `validate_paths` runs before the `try` block and only catches
`PermissionError` from `mkdir`: when the destination path exists as a regular
file, `mkdir(parents=True, exist_ok=True)` raises `FileExistsError`, which
propagates to the caller. -/
theorem c3_counterexample :
    create_backup fsC3 env0 [["s".toList].head!] ["bfile".toList] 10 true =
      .raised .fileExistsError := by decide

/-- C3 as amended: every exception arising inside the `try` block (copy
errors, permission errors, archive failures, anything unexpected) is caught
and reported as a `(False, message)` or `(True, path)` result; an exception
can escape only out of `validate_paths`, which runs before the `try`.  So
whenever validation completes without raising, `create_backup` returns a
result rather than raising. -/
theorem c3_no_raise_after_validation (fs : FS) (env : Env)
    (source bdir : FPath) (m : Int) (cz : Bool)
    (h : isOkE (validate_paths fs env source bdir) = true) :
    ∃ fs' s r sz, create_backup fs env source bdir m cz = .ok fs' s r sz := by
  rw [create_backup]
  rcases hv : validate_paths fs env source bdir with e | ⟨fs1, msg⟩
  · rw [hv] at h
    exact absurd h (by rw [isOkE]; simp)
  · rcases msg with _ | m'
    · dsimp only
      by_cases hex : fsExists fs1 (bdir ++
          [backupName (pathName source) (fmtTimestamp env.localTime)]) = true
      · rw [if_pos hex]
        exact ⟨_, _, _, _, rfl⟩
      · rw [if_neg hex]
        rcases hc : env.copyResult with _ | e'
        · exact ⟨_, _, _, _, rfl⟩
        · cases e' <;> exact ⟨_, _, _, _, rfl⟩
    · exact ⟨_, _, _, _, rfl⟩

/-- Witness for C3's amended theorem: on a well-formed filesystem validation
succeeds and `create_backup` returns a result. -/
theorem c3_no_raise_after_validation_w :
    isOkE (validate_paths [⟨["s".toList], .dir, 0⟩, ⟨["b".toList], .dir, 0⟩]
        env0 [["s".toList].head!] ["b".toList]) = true ∧
    ∃ fs' s r sz,
      create_backup [⟨["s".toList], .dir, 0⟩, ⟨["b".toList], .dir, 0⟩] env0
        [["s".toList].head!] ["b".toList] 10 true = .ok fs' s r sz :=
  ⟨by decide,
    c3_no_raise_after_validation _ env0 _ ["b".toList] 10 true (by decide)⟩

/-- Reduction of `create_zip_archive` when the archive file can be created. -/
theorem create_zip_archive_eq {fs : FS} {p src : FPath} {env : Env}
    (hz : env.zipCreateOk = true) :
    create_zip_archive fs p src env =
      some (withSuffixZipPath p,
        (filesUnder fs src).filter (fun e => env.addOk (src ++ e.1))) := by
  have hcond : ¬ (¬ env.zipCreateOk = true) := by rw [hz]; simp
  rw [create_zip_archive, if_neg hcond]

/-- The archive step as the spec describes it ("walk the copied tree, write
each file into a deflate archive with path relative to the source root as the
entry name"): the entries are taken from the fresh copy at
`source_backup_path`, named relative to that copy's root. -/
def create_zip_archiveSpec (fs : FS) (sourceBackupPath origSource : FPath)
    (env : Env) : Option (FPath × List (FPath × String)) :=
  if ¬ env.zipCreateOk then none
  else
    some (withSuffixZipPath sourceBackupPath,
      (filesUnder fs sourceBackupPath).filter
        (fun e => env.addOk (sourceBackupPath ++ e.1)))

/-- A filesystem in which the copied tree and the original source disagree:
the source holds `a.txt` with content `"new"`, the copy at
`b/data_backup_2024-01-02_03-04-05` holds `a.txt` with content `"old"`. -/
def fsC5 : FS :=
  [ ⟨["s".toList], .dir, 0⟩,
    ⟨["s".toList, "a.txt".toList], .file "new", 1⟩,
    ⟨["b".toList], .dir, 0⟩,
    ⟨["b".toList, "data_backup_2024-01-02_03-04-05".toList], .dir, 2⟩,
    ⟨["b".toList, "data_backup_2024-01-02_03-04-05".toList, "a.txt".toList],
      .file "old", 2⟩ ]

/-- C5 counterexample: the claim says the archive step walks the copied tree
(the freshly made timestamped copy).  In the code, `create_zip_archive`
iterates `original_source.rglob("*")` — the original source tree — so on a
state where copy and source differ, the produced entries carry the source's
content (`"new"`), not the copy's (`"old"`), refuting the claim (embodied by
`create_zip_archiveSpec`, which follows the spec's words). -/
theorem c5_counterexample :
    create_zip_archive fsC5
        ["b".toList, "data_backup_2024-01-02_03-04-05".toList]
        [["s".toList].head!] env0 =
      some (["b".toList, "data_backup_2024-01-02_03-04-05.zip".toList],
        [(["a.txt".toList], "new")]) ∧
    create_zip_archiveSpec fsC5
        ["b".toList, "data_backup_2024-01-02_03-04-05".toList]
        [["s".toList].head!] env0 =
      some (["b".toList, "data_backup_2024-01-02_03-04-05.zip".toList],
        [(["a.txt".toList], "old")]) := by decide

/-- C5 as amended: when the archive file can be created and no per-file write
fails, `create_zip_archive` walks the ORIGINAL source tree and produces one
entry per file under it, named by the file's path relative to the original
source root, with the zip path derived from the copy path via
`with_suffix(".zip")`. -/
theorem c5_archive_walks_original (fs : FS) (p src : FPath) (env : Env)
    (hz : env.zipCreateOk = true) (ha : ∀ q, env.addOk q = true) :
    create_zip_archive fs p src env =
      some (withSuffixZipPath p, filesUnder fs src) := by
  rw [create_zip_archive, if_neg (by rw [hz]; simp)]
  congr 1
  exact congrArg _ (List.filter_eq_self.mpr (fun a _ => ha _))

/-- Witness for C5's amended theorem on a concrete state. -/
theorem c5_archive_walks_original_w :
    env0.zipCreateOk = true ∧
    create_zip_archive fsC5
        ["b".toList, "data_backup_2024-01-02_03-04-05".toList]
        [["s".toList].head!] env0 =
      some (withSuffixZipPath
          ["b".toList, "data_backup_2024-01-02_03-04-05".toList],
        filesUnder fsC5 [["s".toList].head!]) :=
  ⟨rfl, c5_archive_walks_original fsC5 _ _ env0 rfl (fun _ => rfl)⟩

/-- A source directory whose name contains a dot, plus a destination. -/
def fsC8 : FS :=
  [ ⟨["my.data".toList], .dir, 0⟩,
    ⟨["my.data".toList, "a.txt".toList], .file "hi", 1⟩,
    ⟨["b".toList], .dir, 0⟩ ]

/-- C8 counterexample: the claim says every successful invocation creates a
backup named exactly `{folderName}_backup_{timestamp}`.  With the default
`create_zip=True` and a dotted source folder name `my.data`, the run succeeds
but the archive is named `my.zip`: `with_suffix(".zip")` truncates the derived
name at its last interior dot, which here sits inside the folder name.  The
result is neither the derived name nor the derived name with `.zip`
appended. -/
theorem c8_counterexample :
    outView (create_backup fsC8 env0 [["my.data".toList].head!] ["b".toList]
        10 true) =
      some (true, .path ["b".toList, "my.zip".toList]) ∧
    "my.zip".toList ≠
      backupName (pathName [["my.data".toList].head!])
        (fmtTimestamp env0.localTime) ∧
    "my.zip".toList ≠
      backupName (pathName [["my.data".toList].head!])
        (fmtTimestamp env0.localTime) ++ zipExt := by decide

/-- A foldl step that never sees a dot keeps its accumulator. -/
theorem foldl_dot_acc {n : Name} (l : List Nat) (acc : Option Nat)
    (h : ∀ i ∈ l, n.get? i ≠ some '.') :
    l.foldl (fun acc i => if n.get? i = some '.' then some i else acc) acc =
      acc := by
  induction l generalizing acc with
  | nil => rfl
  | cons a t ih =>
      rw [List.foldl_cons, if_neg (h a (List.mem_cons_self a t))]
      exact ih acc (fun i hi => h i (List.mem_cons_of_mem a hi))

/-- On a strictly increasing index list, the last-dot foldl lands on a dot at
or after any given dot position. -/
theorem foldl_dot_ge {n : Name} :
    ∀ (l : List Nat) (acc : Option Nat) (j : Nat), l.Pairwise (· < ·) →
      j ∈ l → n.get? j = some '.' →
      ∃ i, l.foldl (fun acc i => if n.get? i = some '.' then some i else acc)
          acc = some i ∧ n.get? i = some '.' ∧ j ≤ i := by
  intro l
  induction l with
  | nil =>
      intro acc j _ hj _
      cases hj
  | cons a t ih =>
      intro acc j hp hj hdot
      rw [List.foldl_cons]
      rcases List.mem_cons.mp hj with rfl | hjt
      · by_cases hdt : ∃ k, k ∈ t ∧ n.get? k = some '.'
        · rcases hdt with ⟨k, hk, hdk⟩
          rcases ih _ k (List.Pairwise.of_cons hp) hk hdk with
            ⟨i, hfold, hdi, hki⟩
          have haj := List.rel_of_pairwise_cons hp hk
          exact ⟨i, hfold, hdi, by omega⟩
        · push_neg at hdt
          rw [if_pos hdot, foldl_dot_acc t (some j) (fun i hi => hdt i hi)]
          exact ⟨j, rfl, hdot, Nat.le_refl j⟩
      · exact ih _ j (List.Pairwise.of_cons hp) hjt hdot

/-- The last-dot foldl only ever returns a dot position. -/
theorem foldl_dot_sound {n : Name} :
    ∀ (l : List Nat) (acc : Option Nat),
      (∀ k, acc = some k → n.get? k = some '.') →
      ∀ i, l.foldl (fun acc i => if n.get? i = some '.' then some i else acc)
          acc = some i → n.get? i = some '.' := by
  intro l
  induction l with
  | nil =>
      intro acc hacc i h
      exact hacc i h
  | cons a t ih =>
      intro acc hacc i h
      rw [List.foldl_cons] at h
      refine ih _ ?_ i h
      intro k hk
      by_cases hda : n.get? a = some '.'
      · rw [if_pos hda] at hk
        injection hk with hk
        rw [← hk]
        exact hda
      · rw [if_neg hda] at hk
        exact hacc k hk

theorem lastIdxOfDot_sound {n : Name} {i : Nat}
    (h : lastIdxOfDot n = some i) : n.get? i = some '.' := by
  rw [lastIdxOfDot] at h
  exact foldl_dot_sound _ none (fun k hk => Option.noConfusion hk) i h

theorem lastIdxOfDot_ge {n : Name} {j : Nat} (hj : n.get? j = some '.') :
    ∃ i, lastIdxOfDot n = some i ∧ n.get? i = some '.' ∧ j ≤ i := by
  have hjlen : j < n.length := by
    by_contra hge
    push_neg at hge
    rw [List.get?_eq_none.mpr hge] at hj
    exact Option.noConfusion hj
  rw [lastIdxOfDot]
  exact foldl_dot_ge (List.range n.length) none j
    (List.pairwise_lt_range n.length) (List.mem_range.mpr hjlen) hj

/-- `PurePath.suffix` of a name whose only dot sits at the very front is
empty: the leading dot never counts as a suffix start. -/
theorem pySuffixIdx_eq_none_of_zero {n : Name}
    (h : ∀ k, n.get? k = some '.' → k = 0) : pySuffixIdx n = none := by
  rw [pySuffixIdx]
  rcases hlast : lastIdxOfDot n with _ | i
  · rfl
  · have hi := h i (lastIdxOfDot_sound hlast)
    subst hi
    dsimp only
    rw [if_neg]
    rintro ⟨h0, -⟩
    exact absurd h0 (by omega)

/-- When a dot occurs at a nonzero position (and every dot has room for a
character after it), the name has a pathlib suffix starting at an interior
dot. -/
theorem pySuffixIdx_of_inner {n : Name} {j : Nat}
    (hj : n.get? j = some '.') (h1 : 0 < j)
    (hall : ∀ k, n.get? k = some '.' → k + 1 < n.length) :
    ∃ i, pySuffixIdx n = some i ∧ 0 < i ∧ i < n.length := by
  rcases lastIdxOfDot_ge hj with ⟨i, hlast, hdi, hji⟩
  have hb := hall i hdi
  refine ⟨i, ?_, by omega, by omega⟩
  rw [pySuffixIdx, hlast]
  dsimp only
  rw [if_pos ⟨by omega, hb⟩]

/-- Truncation really changes the name: with an interior dot present,
`with_suffix(".zip")` does not simply append `.zip`. -/
theorem pyWithSuffixZip_ne_of_inner {n : Name} {j : Nat}
    (hj : n.get? j = some '.') (h1 : 0 < j)
    (hall : ∀ k, n.get? k = some '.' → k + 1 < n.length) :
    pyWithSuffixZip n ≠ n ++ zipExt := by
  rcases pySuffixIdx_of_inner hj h1 hall with ⟨i, hpi, h0, hlen⟩
  rw [pyWithSuffixZip, hpi]
  intro hc
  have hlen2 := congrArg List.length hc
  simp only [List.length_append, List.length_take] at hlen2
  omega

/-- Every dot of the derived backup name lies inside the folder-name part:
the `_backup_` separator and the timestamp are dot-free. -/
theorem backupName_dot_lt {folder : Name} {t : LocalTime} {k : Nat}
    (h : (backupName folder (fmtTimestamp t)).get? k = some '.') :
    k < folder.length := by
  by_contra hk
  push_neg at hk
  rw [backupName, List.append_assoc, List.get?_append_right hk] at h
  have hmem : '.' ∈ bkSep ++ fmtTimestamp t := List.get?_mem h
  rcases List.mem_append.mp hmem with hm | hm
  · exact absurd hm (by decide)
  · exact dot_not_mem_fmtTimestamp t hm

theorem backupName_get?_lt {folder : Name} (t : LocalTime) {k : Nat}
    (hk : k < folder.length) :
    (backupName folder (fmtTimestamp t)).get? k = folder.get? k := by
  rw [backupName, List.append_assoc, List.get?_append hk]

theorem backupName_dot_bound {folder : Name} {t : LocalTime} {k : Nat}
    (h : (backupName folder (fmtTimestamp t)).get? k = some '.') :
    k + 1 < (backupName folder (fmtTimestamp t)).length := by
  have hlt := backupName_dot_lt h
  rw [backupName]
  simp only [List.length_append]
  have h8 : bkSep.length = 8 := by decide
  omega

/-- `with_suffix(".zip")` on the derived name appends when the folder name
has no dot beyond its first character (a leading dot is not a suffix). -/
theorem pyWithSuffixZip_backupName_of_no_inner {folder : Name} (t : LocalTime)
    (h : '.' ∉ folder.drop 1) :
    pyWithSuffixZip (backupName folder (fmtTimestamp t)) =
      backupName folder (fmtTimestamp t) ++ zipExt := by
  rw [pyWithSuffixZip, pySuffixIdx_eq_none_of_zero ?hz]
  case hz =>
    intro k hk
    have hkf := backupName_dot_lt hk
    by_contra h0
    apply h
    have hfk : folder.get? k = some '.' := by
      rw [← backupName_get?_lt t hkf]
      exact hk
    have hdk : (folder.drop 1).get? (k - 1) = some '.' := by
      rw [List.get?_drop]
      have harith : 1 + (k - 1) = k := by omega
      rw [harith]
      exact hfk
    exact List.get?_mem hdk

/-- `with_suffix(".zip")` on the derived name truncates (differs from plain
appending) when the folder name has a dot beyond its first character. -/
theorem pyWithSuffixZip_backupName_of_inner {folder : Name} (t : LocalTime)
    (hd : '.' ∈ folder.drop 1) :
    pyWithSuffixZip (backupName folder (fmtTimestamp t)) ≠
      backupName folder (fmtTimestamp t) ++ zipExt := by
  rcases List.mem_iff_get?.mp hd with ⟨j', hj'⟩
  rw [List.get?_drop] at hj'
  have hlt : 1 + j' < folder.length := by
    by_contra hge
    push_neg at hge
    rw [List.get?_eq_none.mpr hge] at hj'
    exact Option.noConfusion hj'
  have hname : (backupName folder (fmtTimestamp t)).get? (1 + j') =
      some '.' := by
    rw [backupName_get?_lt t hlt]
    exact hj'
  exact pyWithSuffixZip_ne_of_inner hname (by omega)
    (fun k hk => backupName_dot_bound hk)

/-- C8 as amended: the derived backup name is exactly
`{folderName}_backup_{timestamp}` with the timestamp formatted to second
precision, and the uncompressed copy (`create_zip=False`) is created under
exactly that name.  The zip archive is named by `with_suffix(".zip")` on the
derived name, which appends `.zip` exactly when the folder name has no dot
beyond its first character (pathlib ignores a leading dot when locating the
suffix, so hidden-style names such as `.config` still get `.zip` appended);
a folder name with a non-leading dot truncates the archive name at the
derived name's last dot instead, as in the counterexample. -/
theorem c8_backup_naming (fs : FS) (env : Env) (source bdir : FPath)
    (m : Int)
    (hs : fsIsDir fs source = true) (hb : fsIsDir fs bdir = true)
    (hspace : check_disk_space fs env source = true)
    (hfresh : fsExists fs (bdir ++
      [backupName (pathName source) (fmtTimestamp env.localTime)]) = false)
    (hcopy : env.copyResult = none) :
    (∃ fs4 sz, create_backup fs env source bdir m false =
      .ok fs4 true
        (.path (bdir ++
          [backupName (pathName source) (fmtTimestamp env.localTime)])) sz) ∧
    (env.zipCreateOk = true → '.' ∉ (pathName source).drop 1 →
      ∃ fs4 sz, create_backup fs env source bdir m true =
        .ok fs4 true
          (.path (bdir ++
            [backupName (pathName source) (fmtTimestamp env.localTime) ++
              zipExt])) sz) ∧
    (env.zipCreateOk = true → '.' ∈ (pathName source).drop 1 →
      ∃ fs4 sz, create_backup fs env source bdir m true =
        .ok fs4 true
          (.path (bdir ++
            [pyWithSuffixZip (backupName (pathName source)
              (fmtTimestamp env.localTime))])) sz ∧
        pyWithSuffixZip (backupName (pathName source)
            (fmtTimestamp env.localTime)) ≠
          backupName (pathName source) (fmtTimestamp env.localTime) ++
            zipExt) := by
  refine ⟨?_, ?_, ?_⟩
  · rw [create_backup_run hs hb hspace hfresh hcopy]
    exact ⟨_, _, rfl⟩
  · intro hz hdot
    rw [create_backup_run hs hb hspace hfresh hcopy]
    dsimp only
    rw [create_zip_archive_eq hz]
    dsimp only
    rw [withSuffixZipPath_append,
      pyWithSuffixZip_backupName_of_no_inner env.localTime hdot]
    exact ⟨_, _, rfl⟩
  · intro hz hdot
    rw [create_backup_run hs hb hspace hfresh hcopy]
    dsimp only
    rw [create_zip_archive_eq hz]
    dsimp only
    rw [withSuffixZipPath_append]
    exact ⟨_, _, rfl,
      pyWithSuffixZip_backupName_of_inner env.localTime hdot⟩

/-- Witness for C8's amended theorem: a dot-free folder name `data` (copy and
appended-`.zip` naming), a leading-dot folder name `.d` (still gets `.zip`
appended), and the dotted folder name `my.data` (truncated archive name). -/
theorem c8_backup_naming_w :
    (∃ fs4 sz, create_backup
        [⟨["data".toList], .dir, 0⟩, ⟨["b".toList], .dir, 0⟩] env0
        ["data".toList] ["b".toList] 10 false =
      .ok fs4 true
        (.path (["b".toList] ++
          [backupName (pathName ["data".toList])
            (fmtTimestamp env0.localTime)])) sz) ∧
    (∃ fs4 sz, create_backup
        [⟨[".d".toList], .dir, 0⟩, ⟨["b".toList], .dir, 0⟩] env0
        [".d".toList] ["b".toList] 10 true =
      .ok fs4 true
        (.path (["b".toList] ++
          [backupName (pathName [".d".toList])
            (fmtTimestamp env0.localTime) ++ zipExt])) sz) ∧
    (∃ fs4 sz, create_backup fsC8 env0 ["my.data".toList] ["b".toList]
        10 true =
      .ok fs4 true
        (.path (["b".toList] ++
          [pyWithSuffixZip (backupName (pathName ["my.data".toList])
            (fmtTimestamp env0.localTime))])) sz ∧
      pyWithSuffixZip (backupName (pathName ["my.data".toList])
          (fmtTimestamp env0.localTime)) ≠
        backupName (pathName ["my.data".toList])
          (fmtTimestamp env0.localTime) ++ zipExt) := by
  refine ⟨?_, ?_, ?_⟩
  · exact (c8_backup_naming
      [⟨["data".toList], .dir, 0⟩, ⟨["b".toList], .dir, 0⟩] env0
      ["data".toList] ["b".toList] 10 (by decide) (by decide) (by decide)
      (by decide) rfl).1
  · exact (c8_backup_naming
      [⟨[".d".toList], .dir, 0⟩, ⟨["b".toList], .dir, 0⟩] env0
      [".d".toList] ["b".toList] 10 (by decide) (by decide) (by decide)
      (by decide) rfl).2.1 rfl (by decide)
  · exact (c8_backup_naming fsC8 env0 ["my.data".toList] ["b".toList] 10
      (by decide) (by decide) (by decide) (by decide) rfl).2.2 rfl (by decide)

/-! ### Helper lemmas: cleanup membership -/

theorem create_zip_archive_none {fs : FS} {p src : FPath} {env : Env}
    (hz : env.zipCreateOk = false) : create_zip_archive fs p src env = none := by
  have hcond : ¬ env.zipCreateOk = true := by rw [hz]; simp
  rw [create_zip_archive, if_pos hcond]

theorem pySliceFrom_subset {α : Type} {m : Int} {xs : List α} :
    ∀ a ∈ pySliceFrom m xs, a ∈ xs := by
  rw [pySliceFrom]
  split <;> intro a ha <;> exact List.drop_subset _ _ ha

theorem isZipBackupChild_true_elim {bdir : FPath} {folder : Name} {p : FPath}
    (h : isZipBackupChild bdir folder p = true) :
    p.length = bdir.length + 1 ∧ bdir.isPrefixOf p = true ∧
      matchesZipName folder (pathName p) = true := by
  rw [isZipBackupChild] at h
  simp only [Bool.and_eq_true, decide_eq_true_eq] at h
  exact ⟨h.1.1, h.1.2, h.2⟩

theorem mem_cleanup_elim {fs : FS} {bdir : FPath} {folder : Name} {m : Int}
    {e : FSEntry} (h : e ∈ cleanup_old_backups fs bdir folder m) : e ∈ fs := by
  rw [cleanup_old_backups] at h
  exact foldl_delete_subset h

theorem mem_cleanup_keep {fs : FS} {bdir : FPath} {folder : Name} {m : Int}
    {e : FSEntry} (he : e ∈ fs)
    (h : ∀ d ∈ pySliceFrom m
      (List.insertionSort newerFirst (zipChildren fs bdir folder)),
      ¬ d.path <+: e.path) :
    e ∈ cleanup_old_backups fs bdir folder m := by
  rw [cleanup_old_backups]
  exact foldl_delete_keep he h

theorem pathName_append (l : FPath) (a : Name) : pathName (l ++ [a]) = a := by
  rw [pathName, List.getLast?_concat]
  rfl

/-- An entry that is a direct child of the backup directory but whose name
does not match the `.zip` glob survives every pruning pass. -/
theorem cleanup_keeps_nonmatched {fs : FS} {bdir : FPath} {folder : Name}
    {m : Int} {e : FSEntry} (he : e ∈ fs)
    (hlen : e.path.length = bdir.length + 1)
    (hnm : matchesZipName folder (pathName e.path) = false) :
    e ∈ cleanup_old_backups fs bdir folder m := by
  apply mem_cleanup_keep he
  intro d hd hpre
  have hdz := isZipBackupChild_true_elim
    ((List.mem_filter.mp
      ((List.mem_insertionSort newerFirst).mp (pySliceFrom_subset _ hd))).2)
  have hdp : d.path = e.path :=
    List.IsPrefix.eq_of_length hpre (by omega)
  rw [hdp] at hdz
  rw [hdz.2.2] at hnm
  exact Bool.noConfusion hnm

theorem not_mem_removeTree_self {fs : FS} {p : FPath} {e : FSEntry}
    (h : e ∈ removeTree fs p) : e.path ≠ p := by
  rw [removeTree] at h
  have := (List.mem_filter.mp h).2
  simp only [decide_eq_true_eq] at this
  intro hc
  apply this
  rw [hc]
  exact List.isPrefixOf_iff_prefix.mpr (List.prefix_refl p)

/-- `create_backup` with `create_zip=False` on the happy path. -/
theorem create_backup_run_nozip {fs : FS} {env : Env} {source bdir : FPath}
    {m : Int}
    (hs : fsIsDir fs source = true) (hb : fsIsDir fs bdir = true)
    (hspace : check_disk_space fs env source = true)
    (hfresh : fsExists fs (bdir ++
      [backupName (pathName source) (fmtTimestamp env.localTime)]) = false)
    (hcopy : env.copyResult = none) :
    create_backup fs env source bdir m false =
      (let folder := pathName source
       let bfull := bdir ++ [backupName folder (fmtTimestamp env.localTime)]
       let fs2 := copytreeFS fs source bfull
       let fs4 := cleanup_old_backups fs2 bdir folder m
       Outcome.ok fs4 true (.path bfull)
         (match fsLookup fs4 bfull with
           | some e => stSize e.node
           | none => 0)) := by
  rw [create_backup_run hs hb hspace hfresh hcopy]
  exact rfl

/-- `create_backup` with `create_zip=True` on the happy path when the archive
file can be created. -/
theorem create_backup_run_zip {fs : FS} {env : Env} {source bdir : FPath}
    {m : Int}
    (hs : fsIsDir fs source = true) (hb : fsIsDir fs bdir = true)
    (hspace : check_disk_space fs env source = true)
    (hfresh : fsExists fs (bdir ++
      [backupName (pathName source) (fmtTimestamp env.localTime)]) = false)
    (hcopy : env.copyResult = none) (hz : env.zipCreateOk = true) :
    create_backup fs env source bdir m true =
      (let folder := pathName source
       let bfull := bdir ++ [backupName folder (fmtTimestamp env.localTime)]
       let fs2 := copytreeFS fs source bfull
       let zp := withSuffixZipPath bfull
       let entries := (filesUnder fs2 source).filter
         (fun e => env.addOk (source ++ e.1))
       let fs3 := removeTree (fsInsert fs2 zp (.zip entries) env.now) bfull
       let fs4 := cleanup_old_backups fs3 bdir folder m
       Outcome.ok fs4 true (.path zp)
         (match fsLookup fs4 zp with
           | some e => stSize e.node
           | none => 0)) := by
  rw [create_backup_run hs hb hspace hfresh hcopy]
  dsimp only
  rw [create_zip_archive_eq hz]
  exact rfl

/-- `create_backup` with `create_zip=True` when archive creation fails: the
copy is kept and reported. -/
theorem create_backup_run_zipfail {fs : FS} {env : Env} {source bdir : FPath}
    {m : Int}
    (hs : fsIsDir fs source = true) (hb : fsIsDir fs bdir = true)
    (hspace : check_disk_space fs env source = true)
    (hfresh : fsExists fs (bdir ++
      [backupName (pathName source) (fmtTimestamp env.localTime)]) = false)
    (hcopy : env.copyResult = none) (hz : env.zipCreateOk = false) :
    create_backup fs env source bdir m true =
      (let folder := pathName source
       let bfull := bdir ++ [backupName folder (fmtTimestamp env.localTime)]
       let fs2 := copytreeFS fs source bfull
       let fs4 := cleanup_old_backups fs2 bdir folder m
       Outcome.ok fs4 true (.path bfull)
         (match fsLookup fs4 bfull with
           | some e => stSize e.node
           | none => 0)) := by
  rw [create_backup_run hs hb hspace hfresh hcopy]
  dsimp only
  rw [create_zip_archive_none hz]
  exact rfl

/-- After `rmtree` of the copy, no later pruning can resurrect an entry at
the copy's path. -/
theorem fsExists_cleanup_removeTree (X : FS) (p : FPath) (bdir : FPath)
    (folder : Name) (m : Int) :
    fsExists (cleanup_old_backups (removeTree X p) bdir folder m) p = false := by
  rw [fsExists_eq_false]
  intro e he
  exact not_mem_removeTree_self (mem_cleanup_elim he)

/-- C6: with `create_zip=True`, when archive creation succeeds the
uncompressed timestamped copy is deleted and `create_backup` reports success
with the `.zip` path; when archive creation fails (`create_zip_archive`
returns `None`), the uncompressed copy is retained and `create_backup` still
reports success with the copy's path. -/
theorem c6_archive_outcome (fs : FS) (env : Env) (source bdir : FPath)
    (m : Int)
    (hs : fsIsDir fs source = true) (hb : fsIsDir fs bdir = true)
    (hspace : check_disk_space fs env source = true)
    (hfresh : fsExists fs (bdir ++
      [backupName (pathName source) (fmtTimestamp env.localTime)]) = false)
    (hcopy : env.copyResult = none) :
    (env.zipCreateOk = true →
      ∃ fs4 sz, create_backup fs env source bdir m true =
          .ok fs4 true
            (.path (withSuffixZipPath (bdir ++
              [backupName (pathName source) (fmtTimestamp env.localTime)]))) sz ∧
        fsExists fs4 (bdir ++
          [backupName (pathName source) (fmtTimestamp env.localTime)]) = false) ∧
    (env.zipCreateOk = false →
      ∃ fs4 sz, create_backup fs env source bdir m true =
          .ok fs4 true
            (.path (bdir ++
              [backupName (pathName source) (fmtTimestamp env.localTime)])) sz ∧
        fsExists fs4 (bdir ++
          [backupName (pathName source) (fmtTimestamp env.localTime)]) = true) := by
  constructor
  · intro hz
    rw [create_backup_run_zip hs hb hspace hfresh hcopy hz]
    dsimp only
    exact ⟨_, _, rfl, fsExists_cleanup_removeTree _ _ _ _ _⟩
  · intro hz
    rw [create_backup_run_zipfail hs hb hspace hfresh hcopy hz]
    dsimp only
    refine ⟨_, _, rfl, ?_⟩
    rcases exists_dir_entry_of_isDir hs with ⟨mt, hsrcmem⟩
    have hcopymem : (⟨(bdir ++
        [backupName (pathName source) (fmtTimestamp env.localTime)]) ++
          source.drop source.length, Node.dir, mt⟩ : FSEntry) ∈
        copytreeFS fs source (bdir ++
          [backupName (pathName source) (fmtTimestamp env.localTime)]) :=
      mem_copytreeFS_left hsrcmem
        (List.isPrefixOf_iff_prefix.mpr (List.prefix_refl source))
    rw [List.drop_length, List.append_nil] at hcopymem
    refine fsExists_eq_true_of_mem
      (cleanup_keeps_nonmatched hcopymem (by simp) ?_) rfl
    rw [pathName_append]
    exact matchesZipName_backupName _ _ _

/-- A simple healthy state: a source directory `s` with one file, and an
existing backup directory `b`. -/
def fsOk : FS :=
  [ ⟨["s".toList], .dir, 0⟩,
    ⟨["s".toList, "a.txt".toList], .file "hello", 1⟩,
    ⟨["b".toList], .dir, 0⟩ ]

/-- Witness for C6 at a concrete input, exercising both the archive-success
and the archive-failure branch. -/
theorem c6_archive_outcome_w :
    (∃ fs4 sz, create_backup fsOk env0 ["s".toList] ["b".toList] 10 true =
        .ok fs4 true
          (.path (withSuffixZipPath (["b".toList] ++
            [backupName (pathName ["s".toList])
              (fmtTimestamp env0.localTime)]))) sz ∧
      fsExists fs4 (["b".toList] ++
        [backupName (pathName ["s".toList])
          (fmtTimestamp env0.localTime)]) = false) ∧
    (∃ fs4 sz, create_backup fsOk { env0 with zipCreateOk := false }
        ["s".toList] ["b".toList] 10 true =
        .ok fs4 true
          (.path (["b".toList] ++
            [backupName (pathName ["s".toList])
              (fmtTimestamp ({ env0 with zipCreateOk := false } : Env).localTime)])) sz ∧
      fsExists fs4 (["b".toList] ++
        [backupName (pathName ["s".toList])
          (fmtTimestamp ({ env0 with zipCreateOk := false } : Env).localTime)]) = true) :=
  ⟨(c6_archive_outcome fsOk env0 ["s".toList] ["b".toList] 10 (by decide)
      (by decide) (by decide) (by decide) rfl).1 rfl,
    (c6_archive_outcome fsOk { env0 with zipCreateOk := false } ["s".toList]
      ["b".toList] 10 (by decide) (by decide) (by decide) (by decide) rfl).2
      rfl⟩

/-- The contents of the freshly written archive survive the copy deletion. -/
theorem backupContents_after_archive {fs2 : FS} {bfull zp : FPath}
    {entries : List (FPath × String)} {now : Nat}
    (hne : bfull.isPrefixOf zp = false) :
    backupContents (removeTree (fsInsert fs2 zp (.zip entries) now) bfull) zp =
      some entries := by
  rw [fsInsert, removeTree, List.filter_cons_of_pos (by
    simp only [decide_eq_true_eq]
    rw [hne]
    simp)]
  rw [backupContents, fsLookup, if_pos rfl]

theorem fsExists_removeTree_self (X : FS) (p : FPath) :
    fsExists (removeTree X p) p = false := by
  rw [fsExists_eq_false]
  intro e he
  exact not_mem_removeTree_self he

/-- C2: on the happy path a successful `create_backup` produces a backup
whose extracted contents coincide with the source's files, byte for byte and
path for path.  With `create_zip=True` the archive's entry list is exactly
`filesUnder fs source` (each file of the source under its path relative to
the source root); with `create_zip=False` the files under the kept copy are
exactly those of the source. -/
theorem c2_backup_matches_source (fs : FS) (env : Env) (source bdir : FPath)
    (m : Int)
    (hs : fsIsDir fs source = true) (hb : fsIsDir fs bdir = true)
    (hspace : check_disk_space fs env source = true)
    (hcopy : env.copyResult = none)
    (hclean : ∀ e ∈ fs, ¬ (bdir ++
      [backupName (pathName source) (fmtTimestamp env.localTime)]) <+: e.path)
    (hd1 : ¬ source <+: bdir ++
      [backupName (pathName source) (fmtTimestamp env.localTime)])
    (hd2 : ¬ (bdir ++
      [backupName (pathName source) (fmtTimestamp env.localTime)]) <+: source)
    (hpre : ∀ e ∈ fs, isZipBackupChild bdir (pathName source) e.path = false)
    (hm : 1 ≤ m) (hdot : '.' ∉ pathName source)
    (hz : env.zipCreateOk = true) (ha : ∀ q, env.addOk q = true) :
    (∃ fs4 sz, create_backup fs env source bdir m true =
        .ok fs4 true
          (.path (bdir ++ [pyWithSuffixZip
            (backupName (pathName source) (fmtTimestamp env.localTime))])) sz ∧
      backupContents fs4 (bdir ++ [pyWithSuffixZip
        (backupName (pathName source) (fmtTimestamp env.localTime))]) =
        some (filesUnder fs source)) ∧
    (∃ fs4 sz, create_backup fs env source bdir m false =
        .ok fs4 true
          (.path (bdir ++
            [backupName (pathName source) (fmtTimestamp env.localTime)])) sz ∧
      filesUnder fs4 (bdir ++
        [backupName (pathName source) (fmtTimestamp env.localTime)]) =
        filesUnder fs source) := by
  have hfresh : fsExists fs (bdir ++
      [backupName (pathName source) (fmtTimestamp env.localTime)]) = false :=
    fsExists_eq_false.mpr (fun e he hp =>
      hclean e he (by rw [hp]))
  have hent : (filesUnder (copytreeFS fs source (bdir ++
      [backupName (pathName source) (fmtTimestamp env.localTime)]))
        source).filter (fun e => env.addOk (source ++ e.1)) =
      filesUnder fs source := by
    rw [List.filter_eq_self.mpr (fun a _ => ha _),
      filesUnder_copytreeFS_src hd1 hd2]
  constructor
  · rw [create_backup_run_zip hs hb hspace hfresh hcopy hz]
    dsimp only
    rw [withSuffixZipPath_append, hent,
      cleanup_singleton_kept (zipChildren_archive hdot hpre) hm]
    refine ⟨_, _, rfl, ?_⟩
    exact backupContents_after_archive
      (append_singleton_not_isPrefixOf
        ((zipName_ne_backupName (pathName source) (pathName source)
          env.localTime env.localTime).symm))
  · rw [create_backup_run_nozip hs hb hspace hfresh hcopy]
    dsimp only
    rw [cleanup_of_no_matches (zipChildren_copytree hpre)]
    exact ⟨_, _, rfl, filesUnder_copytreeFS_dst hclean⟩

/-- Witness for C2 at a concrete state: both the archive and the plain-copy
backup reproduce the source's single file. -/
theorem c2_backup_matches_source_w :
    (∃ fs4 sz, create_backup fsOk env0 ["s".toList] ["b".toList] 10 true =
        .ok fs4 true
          (.path (["b".toList] ++ [pyWithSuffixZip
            (backupName (pathName ["s".toList])
              (fmtTimestamp env0.localTime))])) sz ∧
      backupContents fs4 (["b".toList] ++ [pyWithSuffixZip
        (backupName (pathName ["s".toList]) (fmtTimestamp env0.localTime))]) =
        some (filesUnder fsOk ["s".toList])) ∧
    (∃ fs4 sz, create_backup fsOk env0 ["s".toList] ["b".toList] 10 false =
        .ok fs4 true
          (.path (["b".toList] ++
            [backupName (pathName ["s".toList])
              (fmtTimestamp env0.localTime)])) sz ∧
      filesUnder fs4 (["b".toList] ++
        [backupName (pathName ["s".toList]) (fmtTimestamp env0.localTime)]) =
        filesUnder fsOk ["s".toList]) :=
  c2_backup_matches_source fsOk env0 ["s".toList] ["b".toList] 10 (by decide)
    (by decide) (by decide) rfl (by decide) (by decide) (by decide) (by decide)
    (by decide) (by decide) rfl (fun _ => rfl)

/-- C9: failures to add individual files during archive creation are only
logged.  First conjunct: `create_zip_archive` still returns the archive path,
with exactly the files whose `zipf.write` succeeded as entries — whatever
files failed.  Second conjunct: `create_backup` then deletes the uncompressed
copy and reports overall success, so a backup reported successful silently
omits the files that failed to archive. -/
theorem c9_partial_archive_reports_success :
    (∀ (fs : FS) (p src : FPath) (env : Env), env.zipCreateOk = true →
      create_zip_archive fs p src env =
        some (withSuffixZipPath p,
          (filesUnder fs src).filter (fun e => env.addOk (src ++ e.1)))) ∧
    (∀ (fs : FS) (env : Env) (source bdir : FPath) (m : Int),
      fsIsDir fs source = true → fsIsDir fs bdir = true →
      check_disk_space fs env source = true → env.copyResult = none →
      (∀ e ∈ fs, ¬ (bdir ++
        [backupName (pathName source) (fmtTimestamp env.localTime)]) <+:
          e.path) →
      ¬ source <+: bdir ++
        [backupName (pathName source) (fmtTimestamp env.localTime)] →
      ¬ (bdir ++
        [backupName (pathName source) (fmtTimestamp env.localTime)]) <+:
          source →
      (∀ e ∈ fs, isZipBackupChild bdir (pathName source) e.path = false) →
      1 ≤ m → '.' ∉ pathName source → env.zipCreateOk = true →
      ∃ fs4 sz, create_backup fs env source bdir m true =
          .ok fs4 true
            (.path (bdir ++ [pyWithSuffixZip
              (backupName (pathName source) (fmtTimestamp env.localTime))]))
            sz ∧
        fsExists fs4 (bdir ++
          [backupName (pathName source) (fmtTimestamp env.localTime)]) =
          false ∧
        backupContents fs4 (bdir ++ [pyWithSuffixZip
          (backupName (pathName source) (fmtTimestamp env.localTime))]) =
          some ((filesUnder fs source).filter
            (fun e => env.addOk (source ++ e.1)))) := by
  constructor
  · intro fs p src env hz
    exact create_zip_archive_eq hz
  · intro fs env source bdir m hs hb hspace hcopy hclean hd1 hd2 hpre hm hdot hz
    have hfresh : fsExists fs (bdir ++
        [backupName (pathName source) (fmtTimestamp env.localTime)]) = false :=
      fsExists_eq_false.mpr (fun e he hp => hclean e he (by rw [hp]))
    have hent : (filesUnder (copytreeFS fs source (bdir ++
        [backupName (pathName source) (fmtTimestamp env.localTime)]))
          source).filter (fun e => env.addOk (source ++ e.1)) =
        (filesUnder fs source).filter (fun e => env.addOk (source ++ e.1)) := by
      rw [filesUnder_copytreeFS_src hd1 hd2]
    rw [create_backup_run_zip hs hb hspace hfresh hcopy hz]
    dsimp only
    rw [withSuffixZipPath_append, hent,
      cleanup_singleton_kept (zipChildren_archive hdot hpre) hm]
    refine ⟨_, _, rfl, fsExists_removeTree_self _ _, ?_⟩
    exact backupContents_after_archive
      (append_singleton_not_isPrefixOf
        ((zipName_ne_backupName (pathName source) (pathName source)
          env.localTime env.localTime).symm))

/-- An environment in which archiving the file `s/a.txt` fails. -/
def envAddFail : Env :=
  { env0 with addOk := fun q => decide (q ≠ ["s".toList, "a.txt".toList]) }

/-- Witness for C9: with the single source file failing to archive, the run
still reports success with the archive path, the copy is deleted, and the
archive is empty. -/
theorem c9_partial_archive_reports_success_w :
    (create_zip_archive fsOk ["b".toList, "x".toList] ["s".toList] envAddFail =
      some (withSuffixZipPath ["b".toList, "x".toList],
        (filesUnder fsOk ["s".toList]).filter
          (fun e => envAddFail.addOk (["s".toList] ++ e.1)))) ∧
    (∃ fs4 sz, create_backup fsOk envAddFail ["s".toList] ["b".toList] 10
        true =
        .ok fs4 true
          (.path (["b".toList] ++ [pyWithSuffixZip
            (backupName (pathName ["s".toList])
              (fmtTimestamp envAddFail.localTime))])) sz ∧
      fsExists fs4 (["b".toList] ++
        [backupName (pathName ["s".toList])
          (fmtTimestamp envAddFail.localTime)]) = false ∧
      backupContents fs4 (["b".toList] ++ [pyWithSuffixZip
        (backupName (pathName ["s".toList])
          (fmtTimestamp envAddFail.localTime))]) =
        some ((filesUnder fsOk ["s".toList]).filter
          (fun e => envAddFail.addOk (["s".toList] ++ e.1)))) :=
  ⟨c9_partial_archive_reports_success.1 fsOk ["b".toList, "x".toList]
      ["s".toList] envAddFail rfl,
    c9_partial_archive_reports_success.2 fsOk envAddFail ["s".toList]
      ["b".toList] 10 (by decide) (by decide) (by decide) rfl (by decide)
      (by decide) (by decide) (by decide) (by decide) (by decide) rfl⟩

theorem eq_of_map_nodup {l : List FSEntry}
    (h : (l.map FSEntry.path).Nodup) {a b : FSEntry}
    (ha : a ∈ l) (hb : b ∈ l) (hp : a.path = b.path) : a = b := by
  induction l with
  | nil => cases ha
  | cons x l ih =>
      have h' := h
      rw [List.map_cons, List.nodup_cons] at h'
      obtain ⟨h1, h2⟩ := h'
      rcases List.mem_cons.mp ha with rfl | ha'
      · rcases List.mem_cons.mp hb with rfl | hb'
        · rfl
        · exact absurd (List.mem_map.mpr ⟨b, hb', hp.symm⟩) h1
      · rcases List.mem_cons.mp hb with rfl | hb'
        · exact absurd (List.mem_map.mpr ⟨a, ha', hp⟩) h1
        · exact ih h2 ha' hb'

theorem cleanup_zero_no_matched_path {fs : FS} {bdir : FPath} {folder : Name}
    {p : FPath} (hp : isZipBackupChild bdir folder p = true) :
    fsLookup (cleanup_old_backups fs bdir folder 0) p = none := by
  rcases hlk : fsLookup (cleanup_old_backups fs bdir folder 0) p with _ | e
  · rfl
  · exfalso
    rcases fsLookup_mem hlk with ⟨hmem, hpath⟩
    have hz := (cleanup_zero_removes_all e hmem).2
    rw [hpath, hp] at hz
    exact Bool.noConfusion hz

theorem cleanup_zero_zipChildren_nil (fs : FS) (bdir : FPath) (folder : Name) :
    zipChildren (cleanup_old_backups fs bdir folder 0) bdir folder = [] := by
  rw [zipChildren, List.filter_eq_nil_iff]
  intro e he
  rw [(cleanup_zero_removes_all e he).2]
  simp

/-- C10: retention edge cases.  First conjunct (`max_backups = 0`): the
pruning step deletes every `.zip`-matched backup including the archive just
created, yet `create_backup` still reports success with the archive's path —
a path that no longer exists — and the logged backup size is 0.  Second
conjunct (negative `max_backups`): the Python slice `backups[max_backups:]`
keeps all but the last `|max_backups|` entries of the descending-mtime list,
so only the `min(count, |max_backups|)` OLDEST matching backups are deleted
(every kept backup is at least as recent as every deleted one); no retention
bound is enforced. -/
theorem c10_retention_edge_cases :
    (∀ (fs : FS) (env : Env) (source bdir : FPath),
      fsIsDir fs source = true → fsIsDir fs bdir = true →
      check_disk_space fs env source = true →
      fsExists fs (bdir ++
        [backupName (pathName source) (fmtTimestamp env.localTime)]) = false →
      env.copyResult = none → env.zipCreateOk = true →
      '.' ∉ pathName source →
      (match create_backup fs env source bdir 0 true with
        | .ok fs4 s r sz =>
            s = true ∧
            r = .path (bdir ++
              [backupName (pathName source) (fmtTimestamp env.localTime) ++
                zipExt]) ∧
            sz = 0 ∧
            fsExists fs4 (bdir ++
              [backupName (pathName source) (fmtTimestamp env.localTime) ++
                zipExt]) = false ∧
            zipChildren fs4 bdir (pathName source) = []
        | .raised _ => False)) ∧
    (∀ (fs : FS) (bdir : FPath) (folder : Name) (m : Int), m < 0 →
      (fs.map FSEntry.path).Nodup →
      (∀ e, e ∈ zipChildren (cleanup_old_backups fs bdir folder m) bdir folder
          ↔ e ∈ (List.insertionSort newerFirst
            (zipChildren fs bdir folder)).take
            ((zipChildren fs bdir folder).length - (-m).toNat)) ∧
      (∀ e ∈ (List.insertionSort newerFirst
            (zipChildren fs bdir folder)).take
            ((zipChildren fs bdir folder).length - (-m).toNat),
        ∀ d ∈ (List.insertionSort newerFirst
            (zipChildren fs bdir folder)).drop
            ((zipChildren fs bdir folder).length - (-m).toNat),
          d.mtime ≤ e.mtime)) := by
  constructor
  · intro fs env source bdir hs hb hspace hfresh hcopy hz hdot
    rw [create_backup_run_zip hs hb hspace hfresh hcopy hz]
    dsimp only
    rw [withSuffixZipPath_append,
      pyWithSuffixZip_of_dotFree (dot_not_mem_backupName env.localTime hdot)]
    have hmatch : isZipBackupChild bdir (pathName source)
        (bdir ++
          [backupName (pathName source) (fmtTimestamp env.localTime) ++
            zipExt]) = true := by
      rw [isZipBackupChild_append]
      have h := matchesZipName_withSuffix env.localTime hdot
      rw [pyWithSuffixZip_of_dotFree (dot_not_mem_backupName env.localTime hdot)]
        at h
      exact h
    rw [cleanup_zero_no_matched_path hmatch]
    dsimp only
    refine ⟨rfl, rfl, rfl, ?_, cleanup_zero_zipChildren_nil _ _ _⟩
    rw [fsExists, cleanup_zero_no_matched_path hmatch]
    rfl
  · intro fs bdir folder m hm hnodup
    have hmnodup : ((zipChildren fs bdir folder).map FSEntry.path).Nodup :=
      List.Nodup.sublist (List.Sublist.map _ (List.filter_sublist _)) hnodup
    have hsnodup : ((List.insertionSort newerFirst
        (zipChildren fs bdir folder)).map FSEntry.path).Nodup :=
      (List.Perm.nodup_iff
        ((List.perm_insertionSort newerFirst _).map FSEntry.path)).mpr hmnodup
    have hslice : pySliceFrom m
        (List.insertionSort newerFirst (zipChildren fs bdir folder)) =
        (List.insertionSort newerFirst (zipChildren fs bdir folder)).drop
          ((zipChildren fs bdir folder).length - (-m).toNat) := by
      rw [pySliceFrom, if_neg (by omega), List.length_insertionSort]
    constructor
    · intro e
      constructor
      · intro he
        have hm1 := List.mem_filter.mp he
        have hfs : e ∈ fs := mem_cleanup_elim hm1.1
        have hmatched : e ∈ zipChildren fs bdir folder :=
          List.mem_filter.mpr ⟨hfs, hm1.2⟩
        have hsorted : e ∈ List.insertionSort newerFirst
            (zipChildren fs bdir folder) :=
          (List.mem_insertionSort newerFirst).mpr hmatched
        rw [← List.take_append_drop
          ((zipChildren fs bdir folder).length - (-m).toNat)
          (List.insertionSort newerFirst (zipChildren fs bdir folder))]
          at hsorted
        rcases List.mem_append.mp hsorted with htake | hdrop
        · exact htake
        · exfalso
          have hfold := hm1.1
          rw [cleanup_old_backups] at hfold
          exact foldl_delete_removes (by rw [hslice]; exact hdrop) e hfold rfl
      · intro htake
        have hsorted := List.take_subset _ _ htake
        have hmatched := (List.mem_insertionSort newerFirst).mp hsorted
        have hmf := List.mem_filter.mp hmatched
        refine List.mem_filter.mpr ⟨?_, hmf.2⟩
        apply mem_cleanup_keep hmf.1
        intro d hd hpre
        rw [hslice] at hd
        have hdm := (List.mem_insertionSort newerFirst).mp
          (List.drop_subset _ _ hd)
        have hdz := isZipBackupChild_true_elim (List.mem_filter.mp hdm).2
        have hez := isZipBackupChild_true_elim hmf.2
        have hdp : d.path = e.path :=
          List.IsPrefix.eq_of_length hpre (by omega)
        have hde : d = e := eq_of_map_nodup hmnodup hdm hmatched hdp
        have hsn : (List.insertionSort newerFirst
            (zipChildren fs bdir folder)).Nodup :=
          List.Nodup.of_map _ hsnodup
        have happ : (List.take
            ((zipChildren fs bdir folder).length - (-m).toNat)
            (List.insertionSort newerFirst (zipChildren fs bdir folder)) ++
          List.drop ((zipChildren fs bdir folder).length - (-m).toNat)
            (List.insertionSort newerFirst
              (zipChildren fs bdir folder))).Nodup := by
          rw [List.take_append_drop]
          exact hsn
        exact List.disjoint_of_nodup_append happ htake (hde ▸ hd)
    · intro e he d hd
      have hsorted2 : List.Sorted newerFirst
          (List.insertionSort newerFirst (zipChildren fs bdir folder)) :=
        List.sorted_insertionSort newerFirst _
      rw [← List.take_append_drop
        ((zipChildren fs bdir folder).length - (-m).toNat)
        (List.insertionSort newerFirst (zipChildren fs bdir folder))]
        at hsorted2
      exact (List.pairwise_append.mp hsorted2).2.2 e he d hd

/-- A state with a source `s`, a backup directory `b`, and one pre-existing
matching `.zip` backup. -/
def fsC10 : FS :=
  [ ⟨["s".toList], .dir, 0⟩,
    ⟨["s".toList, "a.txt".toList], .file "hello", 1⟩,
    ⟨["b".toList], .dir, 0⟩,
    ⟨["b".toList, "s_backup_2024-01-01_00-00-00.zip".toList], .zip [], 5⟩ ]

/-- A backup directory with three matching `.zip` backups of mtimes 1, 2, 3.
-/
def fsC10b : FS :=
  [ ⟨["b".toList], .dir, 0⟩,
    ⟨["b".toList, "data_backup_2024-01-01_00-00-01.zip".toList], .zip [], 1⟩,
    ⟨["b".toList, "data_backup_2024-01-01_00-00-02.zip".toList], .zip [], 2⟩,
    ⟨["b".toList, "data_backup_2024-01-01_00-00-03.zip".toList], .zip [], 3⟩ ]

/-- Witness for C10: at `max_backups = 0` the fresh archive is deleted but
success is reported with size 0; at `max_backups = -2` only the two oldest
of three matching backups are deleted. -/
theorem c10_retention_edge_cases_w :
    (match create_backup fsC10 env0 ["s".toList] ["b".toList] 0 true with
      | .ok fs4 s r sz =>
          s = true ∧
          r = .path (["b".toList] ++
            [backupName (pathName ["s".toList])
              (fmtTimestamp env0.localTime) ++ zipExt]) ∧
          sz = 0 ∧
          fsExists fs4 (["b".toList] ++
            [backupName (pathName ["s".toList])
              (fmtTimestamp env0.localTime) ++ zipExt]) = false ∧
          zipChildren fs4 ["b".toList] (pathName ["s".toList]) = []
      | .raised _ => False) ∧
    ((∀ e, e ∈ zipChildren
          (cleanup_old_backups fsC10b ["b".toList] "data".toList (-2))
          ["b".toList] "data".toList ↔
        e ∈ (List.insertionSort newerFirst
          (zipChildren fsC10b ["b".toList] "data".toList)).take
          ((zipChildren fsC10b ["b".toList] "data".toList).length -
            (-(-2 : Int)).toNat)) ∧
      (∀ e ∈ (List.insertionSort newerFirst
            (zipChildren fsC10b ["b".toList] "data".toList)).take
            ((zipChildren fsC10b ["b".toList] "data".toList).length -
              (-(-2 : Int)).toNat),
        ∀ d ∈ (List.insertionSort newerFirst
            (zipChildren fsC10b ["b".toList] "data".toList)).drop
            ((zipChildren fsC10b ["b".toList] "data".toList).length -
              (-(-2 : Int)).toNat),
          d.mtime ≤ e.mtime)) :=
  ⟨c10_retention_edge_cases.1 fsC10 env0 ["s".toList] ["b".toList] (by decide)
      (by decide) (by decide) (by decide) rfl rfl (by decide),
    c10_retention_edge_cases.2 fsC10b ["b".toList] "data".toList (-2)
      (by decide) (by decide)⟩

end BackupTool
